import Mathlib

/-!  A verification development for the N-bit quantized embedding-bag JIT kernel
generator (`EmbeddingSpMDMNBit.cc`).  The definitions below are a shallow
embedding of the program: the kernel-shape signature and register planning of
`GenEmbeddingSpMDMNBitLookup::getOrCreate`, the semantics of the machine code it
emits (the three nested loops, the bounds checks, the 2-bit/4-bit unpack
arithmetic, the dequantize-multiply-accumulate body, the masked stores and the
cursor rewinds), and the dispatching factories `GenerateEmbeddingSpMDMNBit` and
`GenerateEmbeddingSpMDMNBitRowWiseSparse`.  Machine integers are modelled as
`Nat`/`Int`; single-precision accumulation is modelled over `ℚ` (exact
arithmetic); fallible steps return `Option`.  -/

set_option maxRecDepth 16000
set_option maxHeartbeats 1600000

namespace FbgemmNBit

/-- `ceil_div(a, b) = (a + b - 1) / b` from the source. -/
def ceil_div (a b : ℕ) : ℕ := (a + b - 1) / b

/-- The target instruction set (`inst_set_t`) the generator is instantiated at. -/
inductive InstSet
  | avx2
  | avx512
deriving DecidableEq

/-- `simd_info<instSet>::WIDTH_32BIT_ELEMS`: number of 32-bit lanes per vector. -/
def vlen : InstSet → ℕ
  | .avx2 => 8
  | .avx512 => 16

/-- `simd_info<instSet>::NUM_VEC_REGS`: size of the vector register pool. -/
def num_vec_regs : InstSet → ℕ
  | .avx2 => 16
  | .avx512 => 32

/-- The kernel-shape signature: everything that is baked into one generated
kernel.  It mirrors the `tuple<int, int, bool, bool, bool, int>` cache key
`(bit_rate, block_size, has_weight, is_weight_positional,
normalize_by_lengths, prefetch)` together with the type-level instruction-set
parameter of `getOrCreate<instSet>`. -/
structure KernelSig where
  isa : InstSet
  bit_rate : ℕ
  block_size : ℕ
  has_weight : Bool
  is_weight_positional : Bool
  normalize_by_lengths : Bool
  prefetch : ℕ
deriving DecidableEq

/-- `num_elem_per_byte = 8 / bit_rate`. -/
def num_elem_per_byte (P : KernelSig) : ℕ := 8 / P.bit_rate

/-- `fused_block_size = ceil_div(block_size, num_elem_per_byte) + 2*sizeof(float16)`:
the byte stride of one fused row (packed nibbles, then fp16 scale, then fp16
bias). -/
def fused_block_size (P : KernelSig) : ℕ :=
  ceil_div P.block_size (num_elem_per_byte P) + 2 * 2

/-- `num_vec_regs_per_block = ceil_div(block_size, vlen)`: vector tiles per row. -/
def num_vec_regs_per_block (P : KernelSig) : ℕ := ceil_div P.block_size (vlen P.isa)

/-- `remainder = block_size % vlen`: float lanes used in the last tile. -/
def remainder (P : KernelSig) : ℕ := P.block_size % vlen P.isa

/-- `num_elem_per_32bit = 32 / bit_rate`. -/
def num_elem_per_32bit (P : KernelSig) : ℕ := 32 / P.bit_rate

/-- `num_of_32bit_per_vload = vlen * 4 / num_elem_per_32bit`. -/
def num_of_32bit_per_vload (P : KernelSig) : ℕ :=
  vlen P.isa * 4 / num_elem_per_32bit P

/-- `remainder_32bit_granularity`: 32-bit groups of quantized data in the last
(partial) four-tile load. -/
def remainder_32bit_granularity (P : KernelSig) : ℕ :=
  ceil_div P.block_size (num_elem_per_32bit P) % num_of_32bit_per_vload P

/-- The unroll factor: the register pool minus the reserved registers, rounded
down to a multiple of four.  Reservation order follows the source: `scale`,
`bias`, `src`, `temp`, (`temp2` when `bit_rate == 2`), `extract_mask`, (`w`
when `has_weight`), (`mask` for the AVX2 store remainder), (`mask2` for the
AVX2 load remainder), (`vlen_inv` when `normalize_by_lengths`). -/
def unroll_factor (P : KernelSig) : ℕ :=
  (num_vec_regs P.isa - 4 - (if P.bit_rate = 2 then 1 else 0) - 1 -
      (if P.has_weight then 1 else 0) -
      (if remainder P ≠ 0 ∧ P.isa = .avx2 then 1 else 0) -
      (if remainder_32bit_granularity P ≠ 0 ∧ P.isa = .avx2 then 1 else 0) -
      (if P.normalize_by_lengths then 1 else 0)) / 4 * 4

/-- Number of passes of the tile-group (`vec_idx`) loop:
`for (vec_idx = 0; vec_idx < num_vec_regs_per_block; vec_idx += unroll_factor)`. -/
def num_groups (P : KernelSig) : ℕ :=
  ceil_div (num_vec_regs_per_block P) (unroll_factor P)

/-- The broadcast constant loaded into `extract_mask`: the word `0x0f0f` for
bit-rate 4 (via `vpbroadcastw`), the dword `0x03030303` for bit-rate 2 (via
`vpbroadcastd`). -/
def extract_mask_broadcast (bit_rate : ℕ) : ℕ :=
  if bit_rate = 4 then 0x0f0f else 0x03030303

/-! ### The SIMD unpack arithmetic

For bit-rate 4 the source loads bytes zero-extended to 16-bit lanes
(`vpmovzxbw`), then computes `src | (src << 4)` and masks with the `0x0f0f`
word broadcast.  `unpack4_lane` is one 16-bit lane of the result, holding one
zero-extended source byte.  (The shift is emitted as the 32-bit `vpslld`, but
a zero-extended byte shifted by 4 stays below `2^12`, so nothing crosses a
16-bit lane boundary and the lane-level model is exact; see
`unpack4_shift_stays_in_lane`.)

For bit-rate 2 the source loads bytes zero-extended to 32-bit lanes
(`vpmovzxbd`), then ORs together `src << (2*8+2)`, `src << (8+4)`, `src << 6`
and `src`, and masks with the `0x03030303` broadcast.  `unpack2_lane` is one
32-bit lane, holding one zero-extended source byte. -/

/-- One 16-bit lane of the bit-rate-4 unpack, from the source:
`vpslld src, 4` then `vpor`/`vpand` with the `0x0f0f` word broadcast. -/
def unpack4_lane (b : ℕ) : ℕ :=
  (b ||| (b <<< 4)) &&& 0x0f0f

/-- One 32-bit lane of the bit-rate-2 unpack, from the source: shifts
`2*8+2`, `8+4` and `6` ORed with the source, masked with `0x03030303`. -/
def unpack2_lane (b : ℕ) : ℕ :=
  ((b <<< (2 * 8 + 2)) ||| (b <<< (8 + 4)) ||| (b <<< 6) ||| b) &&& 0x03030303

/-- Modelled from the spec's words (for comparison with `unpack2_lane`): the
spec claims the bit-rate-2 unpack computes `(src << 22) | (src << 12) |
(src << 6) | src` before masking. -/
def unpack2_lane_spec_words (b : ℕ) : ℕ :=
  ((b <<< 22) ||| (b <<< 12) ||| (b <<< 6) ||| b) &&& 0x03030303

/-- The `j`-th `bit_rate`-bit field of a byte, least-significant field first:
the layout contract of a packed quantized row (`(b >> (bit_rate*j)) &
(2^bit_rate - 1)`, written with `/` and `%`). -/
def quant_field (bit_rate b j : ℕ) : ℕ :=
  b / 2 ^ (bit_rate * j) % 2 ^ bit_rate

/-! ### Row decoding -/

/-- Read a byte of the embedding table (`input`). -/
def byteAt (input : List ℕ) (i : ℕ) : ℕ := input.getD i 0

/-- IEEE-754 half-precision decode, the effect of `vcvtph2ps` on a 16-bit
word, as an exact rational.  (The exponent-31 infinity/NaN encodings fall
outside this model's claims and are given the same formula value.) -/
def cvtph2ps (w : ℕ) : ℚ :=
  let s : ℕ := w / 2 ^ 15 % 2
  let e : ℕ := w / 2 ^ 10 % 2 ^ 5
  let m : ℕ := w % 2 ^ 10
  let mag : ℚ := if e = 0 then (m : ℚ) / 2 ^ 24 else (2 ^ e * (1024 + m) : ℚ) / 2 ^ 25
  if s = 1 then -mag else mag

/-- Byte offset of row `row` in the fused table. -/
def row_base (P : KernelSig) (row : ℕ) : ℕ := row * fused_block_size P

/-- The fp16 scale trailing row `row`'s packed data (little-endian bytes). -/
def row_scale (P : KernelSig) (input : List ℕ) (row : ℕ) : ℚ :=
  let o := row_base P row + ceil_div P.block_size (num_elem_per_byte P)
  cvtph2ps (byteAt input o + 256 * byteAt input (o + 1))

/-- The fp16 bias trailing row `row`'s scale. -/
def row_bias (P : KernelSig) (input : List ℕ) (row : ℕ) : ℚ :=
  let o := row_base P row + ceil_div P.block_size (num_elem_per_byte P) + 2
  cvtph2ps (byteAt input o + 256 * byteAt input (o + 1))

/-- Quantized element `c` of row `row`: field `c % num_elem_per_byte` of byte
`c / num_elem_per_byte`, as produced by the unpack pipeline (see the
`unpack4_lane32` / `unpack2_lane` byte-placement theorems). -/
def row_elem (P : KernelSig) (input : List ℕ) (row c : ℕ) : ℕ :=
  quant_field P.bit_rate
    (byteAt input (row_base P row + c / num_elem_per_byte P))
    (c % num_elem_per_byte P)

/-! ### Kernel invocation arguments -/

/-- Arguments of one generated-kernel invocation.  `table` is
`compressed_indices_table` and is present exactly in the rowwise-sparse
variant. -/
structure KernelArgs where
  output_size : ℕ
  index_size : ℤ
  data_size : ℤ
  input : List ℕ
  indices : List ℤ
  lengths : List ℤ
  weights : List ℚ
  table : Option (List ℤ)

/-- Read an `indxType` element at cursor `c` (element-granular pointer). -/
def readZ (l : List ℤ) (c : ℤ) : ℤ :=
  if c < 0 then 0 else l.getD c.toNat 0

/-- Read a float element at cursor `c`. -/
def readQ (l : List ℚ) (c : ℤ) : ℚ :=
  if c < 0 then 0 else l.getD c.toNat 0

/-! ### The emitted kernel's semantics -/

/-- The fused dequant-multiply-accumulate over one tile group's live columns:
for each accumulator lane (column `c`, starting at `colLo`),
`out = (out + bias) + value * scale` — `vaddps` then `vfmadd231ps`. -/
def fma_row (P : KernelSig) (input : List ℕ) (row : ℕ) (sc bs : ℚ) :
    ℕ → List ℚ → List ℚ
  | _, [] => []
  | c, a :: acc =>
    (a + bs + (row_elem P input row c : ℚ) * sc) :: fma_row P input row sc bs (c + 1) acc

/-- One index's contribution to a tile group: broadcast the row's fp16 scale
and bias (converted to single), multiply both by the per-index weight when
`has_weight`, then accumulate every live column. -/
def accumulate (P : KernelSig) (input : List ℕ) (row : ℕ) (w : ℚ) (colLo : ℕ)
    (acc : List ℚ) : List ℚ :=
  let sc := row_scale P input row
  let bs := row_bias P input row
  fma_row P input row (if P.has_weight then sc * w else sc)
    (if P.has_weight then bs * w else bs) colLo acc

/-- The middle (`dataIndex`) loop, `n` iterations remaining.  Each iteration:
load the next index and fail (`jl error` / `jge error`) unless
`0 ≤ idx < data_size`; in the rowwise-sparse variant remap through
`compressed_indices_table`; advance the `indices` cursor; when `has_weight`
broadcast the weight and advance the `weights` cursor; a remapped value of
`-1` skips back to the loop head; otherwise accumulate the (possibly
remapped) row.  Returns `none` on the error exit. -/
def middle_loop (P : KernelSig) (A : KernelArgs) (colLo : ℕ) :
    ℕ → List ℚ → ℤ → ℤ → Option (List ℚ × ℤ × ℤ)
  | 0, acc, icur, wcur => some (acc, icur, wcur)
  | n + 1, acc, icur, wcur =>
    let idx := readZ A.indices icur
    if idx < 0 ∨ A.data_size ≤ idx then none
    else
      let w := readQ A.weights wcur
      let icur' := icur + 1
      let wcur' := if P.has_weight then wcur + 1 else wcur
      match A.table with
      | none =>
        middle_loop P A colLo n (accumulate P A.input idx.toNat w colLo acc) icur' wcur'
      | some t =>
        let r := readZ t idx
        if r = -1 then middle_loop P A colLo n acc icur' wcur'
        else middle_loop P A colLo n (accumulate P A.input r.toNat w colLo acc) icur' wcur'

/-- The length-normalization reciprocal: `0` when the bag length is `< 1`
(the `jl IfLengthsEnd` guard past the division), else `1 / length`. -/
def vlen_inv_val (len : ℤ) : ℚ := if len < 1 then 0 else (len : ℚ)⁻¹

/-- The cursor reset after a tile group's stores (`Reset lengths_R_, indices,
weights to run the dataIndex loop again`): under
`vec_idx + unroll_factor < num_vec_regs_per_block || (has_weight &&
is_weight_positional)`, rewind `weights` by the bag length when `has_weight`
(and `indices` too when another unroll group follows); without `has_weight`,
rewind `indices`. -/
def reset_cursors (P : KernelSig) (vecIdx : ℕ) (len : ℤ) (icur wcur : ℤ) : ℤ × ℤ :=
  if vecIdx + unroll_factor P < num_vec_regs_per_block P ∨
      (P.has_weight ∧ P.is_weight_positional) then
    if P.has_weight then
      (if vecIdx + unroll_factor P < num_vec_regs_per_block P then icur - len else icur,
        wcur - len)
    else (icur - len, wcur)
  else (icur, wcur)

/-- Modelled from the spec's words (for comparison with the condition inside
`reset_cursors`): the spec claims a cursor rewind is emitted whenever
`v + U < tiles_per_row` OR `is_weight_positional` is set. -/
def reset_condition_spec_words (P : KernelSig) (vecIdx : ℕ) : Bool :=
  decide (vecIdx + unroll_factor P < num_vec_regs_per_block P) || P.is_weight_positional

/-- Write `vals` into `out` starting at position `pos` (vector stores of a
tile group; writes beyond the buffer end are dropped, the buffer length never
changes). -/
def write_slice : List ℚ → ℕ → List ℚ → List ℚ
  | [], _, _ => []
  | a :: out, p + 1, vals => a :: write_slice out p vals
  | a :: out, 0, [] => a :: out
  | _ :: out, 0, v :: vals => v :: write_slice out 0 vals

/-- The tile-group (`vec_idx`) loop of one bag, `g` passes remaining, current
pass starting at tile `vecIdx`.  Each pass: the per-bag bounds guard
(`indices + length * sizeof(indxType)` must not exceed the end-of-indices
pointer, `jg error`), zero the accumulators, run the middle loop, then on
success multiply by the normalization reciprocal when requested, store the
group's columns (the last tile masked to the column remainder), and reset the
cursors for the next pass.  Returns the final cursors (`none` on error) and
the output buffer as updated so far. -/
def bag_loop (P : KernelSig) (A : KernelArgs) (len : ℤ) (vinv : ℚ) (base : ℕ) :
    ℕ → ℕ → ℤ → ℤ → List ℚ → Option (ℤ × ℤ) × List ℚ
  | 0, _, icur, wcur, out => (some (icur, wcur), out)
  | g + 1, vecIdx, icur, wcur, out =>
    if A.index_size < icur + len then (none, out)
    else
      let cur := min (unroll_factor P) (num_vec_regs_per_block P - vecIdx)
      let colLo := vecIdx * vlen P.isa
      let colHi := min P.block_size ((vecIdx + cur) * vlen P.isa)
      match middle_loop P A colLo len.toNat (List.replicate (colHi - colLo) 0) icur wcur with
      | none => (none, out)
      | some (acc, icur', wcur') =>
        let vals := if P.normalize_by_lengths then acc.map (· * vinv) else acc
        let out' := write_slice out (base + colLo) vals
        let (icur'', wcur'') := reset_cursors P vecIdx len icur' wcur'
        bag_loop P A len vinv base g (vecIdx + unroll_factor P) icur'' wcur'' out'

/-- The outer (`rangeIndex`) loop, `r` bags remaining, current bag `bag`.
Per bag: read `lengths[bag]`, compute the normalization reciprocal, run the
tile-group loop, then advance the `lengths` cursor and the `out` pointer by
one row.  After the last bag, `indices == index_size` (the end pointer) must
hold exactly (`jne error`).  Returns the success flag, the output buffer, and
the number of bags fully processed. -/
def outer_loop (P : KernelSig) (A : KernelArgs) :
    ℕ → ℕ → ℤ → ℤ → List ℚ → Bool × List ℚ × ℕ
  | 0, bag, icur, _, out => (decide (icur = A.index_size), out, bag)
  | r + 1, bag, icur, wcur, out =>
    let len := readZ A.lengths (bag : ℤ)
    let vinv := vlen_inv_val len
    match bag_loop P A len vinv (bag * P.block_size) (num_groups P) 0 icur wcur out with
    | (none, out') => (false, out', bag)
    | (some (icur', wcur'), out') => outer_loop P A r (bag + 1) icur' wcur' out'

/-- One invocation of the generated kernel on output buffer `out0`:
`(success flag, final output buffer, bags fully processed)`.  The `prefetch`
sub-step of the source only issues `prefetcht0` hints and has no architectural
effect, so it does not appear. -/
def run_kernel (P : KernelSig) (A : KernelArgs) (out0 : List ℚ) : Bool × List ℚ × ℕ :=
  outer_loop P A A.output_size 0 0 0 out0

/-! ### Specification predicates over invocations -/

/-- The runtime data error the middle loop checks for: the index read at
cursor `c` is negative or not below `data_size`. -/
abbrev bad_index (A : KernelArgs) (c : ℤ) : Prop :=
  readZ A.indices c < 0 ∨ A.data_size ≤ readZ A.indices c

/-- The sum of `r` length entries starting at bag `bag`, as the kernel reads
them. -/
def lens_sum (A : KernelArgs) : ℕ → ℕ → ℤ
  | _, 0 => 0
  | bag, r + 1 => readZ A.lengths (bag : ℤ) + lens_sum A (bag + 1) r

/-- Success condition of the generated kernel, bag by bag: each bag's guard
`indices + length ≤ indices_end` holds, every index the bag reads is in
range, and after the last bag the `indices` cursor sits exactly at the end
pointer. -/
def loop_ok (A : KernelArgs) : ℕ → ℕ → ℤ → Prop
  | 0, _, icur => icur = A.index_size
  | r + 1, bag, icur =>
    icur + readZ A.lengths (bag : ℤ) ≤ A.index_size ∧
      (∀ k < (readZ A.lengths (bag : ℤ)).toNat, ¬bad_index A (icur + k)) ∧
      loop_ok A r (bag + 1) (icur + readZ A.lengths (bag : ℤ))

/-- Fold a list of (row id, weight) contributions over a tile group's
accumulators. -/
def acc_fold (P : KernelSig) (input : List ℕ) (colLo : ℕ) :
    List (ℤ × ℚ) → List ℚ → List ℚ
  | [], acc => acc
  | (r, w) :: ps, acc => acc_fold P input colLo ps (accumulate P input r.toNat w colLo acc)

/-- The (row id, weight) pairs a dense middle loop reads in `n` iterations
from cursors `icur`, `wcur` (the weights cursor advances only under
`has_weight`). -/
def dense_pairs (A : KernelArgs) (hw : Bool) : ℤ → ℤ → ℕ → List (ℤ × ℚ)
  | _, _, 0 => []
  | icur, wcur, n + 1 =>
    (readZ A.indices icur, readQ A.weights wcur) ::
      dense_pairs A hw (icur + 1) (if hw then wcur + 1 else wcur) n

/-- The (remapped row id, weight) pairs a rowwise-sparse middle loop
accumulates in `n` iterations: indices whose `compressed_indices_table` entry
is `-1` are dropped (their cursor positions are still consumed). -/
def sparse_pairs (A : KernelArgs) (t : List ℤ) (hw : Bool) : ℤ → ℤ → ℕ → List (ℤ × ℚ)
  | _, _, 0 => []
  | icur, wcur, n + 1 =>
    if readZ t (readZ A.indices icur) = -1 then
      sparse_pairs A t hw (icur + 1) (if hw then wcur + 1 else wcur) n
    else
      (readZ t (readZ A.indices icur), readQ A.weights wcur) ::
        sparse_pairs A t hw (icur + 1) (if hw then wcur + 1 else wcur) n

/-! ### The dispatching factory and the code cache -/

/-- The CPU capability oracle consumed by the factory: `cpuinfo_initialize()`,
`fbgemmHasAvx512Support()`, `fbgemmHasAvx2Support()`. -/
structure CpuEnv where
  initOk : Bool
  hasAvx512 : Bool
  hasAvx2 : Bool

/-- Which implementation the factory hands back. -/
inductive KernelChoice
  | jit512
  | jit256
  | scalarRef
deriving DecidableEq

/-- Outcome of a factory call: the `assert(bit_rate == 2 || bit_rate == 4)`
violation, the `runtime_error` thrown when `cpuinfo_initialize()` fails (a
domain error, no kernel returned), or a kernel. -/
inductive FactoryOutcome
  | assertViolation
  | domainError (msg : String)
  | kernel (c : KernelChoice)
deriving DecidableEq

/-- `GenerateEmbeddingSpMDMNBit`: assert the bit rate, initialize cpuinfo,
then pick AVX-512, else AVX2, else the scalar reference closure. -/
def generateEmbeddingSpMDMNBit (env : CpuEnv) (bit_rate : ℕ) : FactoryOutcome :=
  if ¬(bit_rate = 2 ∨ bit_rate = 4) then .assertViolation
  else if ¬env.initOk then .domainError "Failed to initialize cpuinfo!"
  else if env.hasAvx512 then .kernel .jit512
  else if env.hasAvx2 then .kernel .jit256
  else .kernel .scalarRef

/-- `GenerateEmbeddingSpMDMNBitRowWiseSparse`: identical dispatch structure. -/
def generateEmbeddingSpMDMNBitRowWiseSparse (env : CpuEnv) (bit_rate : ℕ) :
    FactoryOutcome :=
  if ¬(bit_rate = 2 ∨ bit_rate = 4) then .assertViolation
  else if ¬env.initOk then .domainError "Failed to initialize cpuinfo!"
  else if env.hasAvx512 then .kernel .jit512
  else if env.hasAvx2 then .kernel .jit256
  else .kernel .scalarRef

/-- Which process-level stream a diagnostic is written to. -/
inductive OutStream
  | standardOut
  | standardErr
deriving DecidableEq

/-- Result of running the code-producing lambda once: the published kernel (or
`none`) and the diagnostics it emitted. -/
structure ProducerRun (V : Type) where
  value : Option V
  emitted : List (OutStream × String)

/-- The tail of the producer lambda: `err = runtime().add(&fn, &code)`; on
error, `cout << "Error: in fn add" << endl` and `return nullptr`, else the
function pointer.  `publishOk` abstracts the assembler runtime's verdict and
`fn` the published code pointer. -/
def producer_run (V : Type) (publishOk : Bool) (fn : V) : ProducerRun V :=
  if publishOk then ⟨some fn, []⟩
  else ⟨none, [(OutStream.standardOut, "Error: in fn add")]⟩

/-- Look a key up in the cache (modelled as an association list). -/
def cacheFind (K V : Type) (eq : K → K → Bool) : List (K × V) → K → Option V
  | [], _ => none
  | (k, v) :: rest, key => if eq k key then some v else cacheFind K V eq rest key

/-- Modelled from the spec: `CodeCache::getOrCreate` (the header
`CodeCache.h` is not among the sources).  Per the spec, it returns the cached
value for the key; if absent it invokes the producer once and publishes the
result, and a producer failure (null result) is not cached, so subsequent
calls retry. -/
def getOrCreate (K V : Type) (eq : K → K → Bool) (cache : List (K × V)) (key : K)
    (producer : Unit → Option V) : Option V × List (K × V) :=
  match cacheFind K V eq cache key with
  | some v => (some v, cache)
  | none =>
    match producer () with
    | some v => (some v, (key, v) :: cache)
    | none => (none, cache)

/-! ## Supporting lemmas -/

/-- The emitted bit-rate-4 shift is the 32-bit `vpslld`, but shifting the
zero-extended bytes of two adjacent 16-bit lanes by 4 moves nothing across
the lane boundary, so the per-lane model `unpack4_lane` is exact. -/
theorem unpack4_shift_stays_in_lane (b0 b1 : ℕ) :
    (b0 + 2 ^ 16 * b1) <<< 4 = b0 <<< 4 + 2 ^ 16 * (b1 <<< 4) := by
  simp [Nat.shiftLeft_eq]
  ring

theorem ceil_div_pos (n u : ℕ) (hn : 0 < n) (hu : 0 < u) : 0 < ceil_div n u := by
  unfold ceil_div
  have := Nat.div_pos (by omega : u ≤ n + u - 1) hu
  omega

theorem le_ceil_div_mul (n u : ℕ) (hu : 0 < u) : n ≤ ceil_div n u * u := by
  unfold ceil_div
  have h1 := Nat.div_add_mod (n + u - 1) u
  have h2 := Nat.mod_lt (n + u - 1) hu
  rw [Nat.mul_comm]
  omega

theorem ceil_div_sub_one_mul_lt (n u : ℕ) (hn : 0 < n) (hu : 0 < u) :
    (ceil_div n u - 1) * u < n := by
  unfold ceil_div
  have h1 := Nat.div_add_mod (n + u - 1) u
  have h2 := Nat.mod_lt (n + u - 1) hu
  rw [Nat.sub_mul, one_mul, Nat.mul_comm]
  omega

theorem vlen_pos (isa : InstSet) : 0 < vlen isa := by cases isa <;> simp [vlen]

/-- The register plan always leaves at least one group of four tiles. -/
theorem unroll_factor_pos (P : KernelSig) : 0 < unroll_factor P := by
  rcases P with ⟨isa, br, bs, hw, pos, nl, pf⟩
  unfold unroll_factor
  cases isa <;> simp [num_vec_regs] <;> split_ifs <;> omega

theorem num_vec_regs_per_block_pos (P : KernelSig) (hbs : 0 < P.block_size) :
    0 < num_vec_regs_per_block P :=
  ceil_div_pos _ _ hbs (vlen_pos P.isa)

theorem num_groups_pos (P : KernelSig) (hbs : 0 < P.block_size) : 0 < num_groups P :=
  ceil_div_pos _ _ (num_vec_regs_per_block_pos P hbs) (unroll_factor_pos P)

/-- With `g ≥ 2` groups left (of `num_groups`), another unroll group follows
the current one. -/
theorem more_groups_of_two_le (P : KernelSig) (hbs : 0 < P.block_size) (g : ℕ)
    (hg2 : 2 ≤ g) (hgG : g ≤ num_groups P) :
    (num_groups P - g) * unroll_factor P + unroll_factor P <
      num_vec_regs_per_block P := by
  have hU := unroll_factor_pos P
  have hN := num_vec_regs_per_block_pos P hbs
  have h2 := ceil_div_sub_one_mul_lt (num_vec_regs_per_block P) (unroll_factor P) hN hU
  have h3 : num_groups P - g + 1 ≤ num_groups P - 1 := by omega
  calc (num_groups P - g) * unroll_factor P + unroll_factor P
      = (num_groups P - g + 1) * unroll_factor P := by ring
    _ ≤ (num_groups P - 1) * unroll_factor P := Nat.mul_le_mul_right _ h3
    _ = (ceil_div (num_vec_regs_per_block P) (unroll_factor P) - 1) * unroll_factor P := by
        rw [num_groups]
    _ < num_vec_regs_per_block P := h2

/-- At the last group no further unroll group follows. -/
theorem no_more_groups_last (P : KernelSig) (hbs : 0 < P.block_size) :
    ¬((num_groups P - 1) * unroll_factor P + unroll_factor P <
      num_vec_regs_per_block P) := by
  have hU := unroll_factor_pos P
  have hG := num_groups_pos P hbs
  have h1 := le_ceil_div_mul (num_vec_regs_per_block P) (unroll_factor P) hU
  intro hlt
  have h4 : (num_groups P - 1) * unroll_factor P + unroll_factor P =
      num_groups P * unroll_factor P := by
    rw [Nat.sub_mul, one_mul]
    have h5 : unroll_factor P ≤ num_groups P * unroll_factor P :=
      Nat.le_mul_of_pos_left _ hG
    omega
  rw [num_groups] at h4 hlt
  omega

/-- At a non-final group the current tile count is the full unroll factor and
the stored columns end exactly where the next group's begin. -/
theorem group_cols_middle (P : KernelSig) (hbs : 0 < P.block_size) (g : ℕ)
    (hg2 : 2 ≤ g) (hgG : g ≤ num_groups P) :
    min (unroll_factor P)
        (num_vec_regs_per_block P - (num_groups P - g) * unroll_factor P) =
      unroll_factor P ∧
    min P.block_size
        (((num_groups P - g) * unroll_factor P + unroll_factor P) * vlen P.isa) =
      ((num_groups P - g) * unroll_factor P + unroll_factor P) * vlen P.isa := by
  have hm := more_groups_of_two_le P hbs g hg2 hgG
  have hv := vlen_pos P.isa
  have hN := num_vec_regs_per_block_pos P hbs
  have hcl := ceil_div_sub_one_mul_lt P.block_size (vlen P.isa) hbs hv
  constructor
  · omega
  · have h1 : (num_groups P - g) * unroll_factor P + unroll_factor P ≤
        num_vec_regs_per_block P - 1 := by omega
    have h2 : ((num_groups P - g) * unroll_factor P + unroll_factor P) * vlen P.isa ≤
        (num_vec_regs_per_block P - 1) * vlen P.isa :=
      Nat.mul_le_mul_right _ h1
    rw [num_vec_regs_per_block] at h2
    omega

/-- At the final group the stored columns end exactly at `block_size`. -/
theorem group_cols_last (P : KernelSig) (hbs : 0 < P.block_size) :
    min P.block_size
        (((num_groups P - 1) * unroll_factor P +
            min (unroll_factor P)
              (num_vec_regs_per_block P - (num_groups P - 1) * unroll_factor P)) *
          vlen P.isa) = P.block_size := by
  have hl := no_more_groups_last P hbs
  have hv := vlen_pos P.isa
  have hN := num_vec_regs_per_block_pos P hbs
  have hlt : (num_groups P - 1) * unroll_factor P < num_vec_regs_per_block P :=
    ceil_div_sub_one_mul_lt (num_vec_regs_per_block P) (unroll_factor P) hN
      (unroll_factor_pos P)
  have hmin : min (unroll_factor P)
      (num_vec_regs_per_block P - (num_groups P - 1) * unroll_factor P) =
      num_vec_regs_per_block P - (num_groups P - 1) * unroll_factor P := by omega
  rw [hmin]
  have hsum : (num_groups P - 1) * unroll_factor P +
      (num_vec_regs_per_block P - (num_groups P - 1) * unroll_factor P) =
      num_vec_regs_per_block P := by omega
  rw [hsum]
  have hge := le_ceil_div_mul P.block_size (vlen P.isa) hv
  rw [num_vec_regs_per_block]
  omega

/-- On success the middle loop advances the `indices` cursor by exactly its
iteration count, and the `weights` cursor too when `has_weight`. -/
theorem middle_loop_cursors (P : KernelSig) (A : KernelArgs) (colLo : ℕ) :
    ∀ (n : ℕ) (acc : List ℚ) (icur wcur : ℤ) (res : List ℚ × ℤ × ℤ),
      middle_loop P A colLo n acc icur wcur = some res →
      res.2.1 = icur + n ∧ res.2.2 = if P.has_weight then wcur + n else wcur := by
  intro n
  induction n with
  | zero =>
    intro acc icur wcur res h
    simp only [middle_loop, Option.some.injEq] at h
    subst h
    constructor <;> simp
  | succ n ih =>
    intro acc icur wcur res h
    have step : ∀ acc₂ : List ℚ,
        middle_loop P A colLo n acc₂ (icur + 1)
          (if P.has_weight then wcur + 1 else wcur) = some res →
        res.2.1 = icur + ((n : ℤ) + 1) ∧
          res.2.2 = if P.has_weight then wcur + ((n : ℤ) + 1) else wcur := by
      intro acc₂ h₂
      obtain ⟨h1, h2⟩ := ih _ _ _ _ h₂
      refine ⟨by omega, ?_⟩
      by_cases hw : P.has_weight <;> simp [hw] at h2 ⊢ <;> omega
    by_cases hb : (readZ A.indices icur < 0 ∨ A.data_size ≤ readZ A.indices icur)
    · simp only [middle_loop, if_pos hb] at h
      exact absurd h (by simp)
    · rcases ht : A.table with _ | t
      · simp only [middle_loop, if_neg hb, ht] at h
        have := step _ h
        push_cast at this ⊢
        exact this
      · by_cases hr : readZ t (readZ A.indices icur) = -1
        · simp only [middle_loop, if_neg hb, ht, if_pos hr] at h
          have := step _ h
          push_cast at this ⊢
          exact this
        · simp only [middle_loop, if_neg hb, ht, if_neg hr] at h
          have := step _ h
          push_cast at this ⊢
          exact this

/-- The middle loop hits the error exit exactly when one of the `n` indices
it reads is out of range; the accumulators play no role in this. -/
theorem middle_loop_none_iff (P : KernelSig) (A : KernelArgs) (colLo : ℕ) :
    ∀ (n : ℕ) (acc : List ℚ) (icur wcur : ℤ),
      middle_loop P A colLo n acc icur wcur = none ↔
        ∃ k < n, bad_index A (icur + (k : ℤ)) := by
  intro n
  induction n with
  | zero =>
    intro acc icur wcur
    simp [middle_loop]
  | succ n ih =>
    intro acc icur wcur
    by_cases hb : (readZ A.indices icur < 0 ∨ A.data_size ≤ readZ A.indices icur)
    · constructor
      · intro _
        exact ⟨0, by omega, by simpa [bad_index] using hb⟩
      · intro _
        simp [middle_loop, if_pos hb]
    · have hshift : ∀ acc₂ : List ℚ,
          (middle_loop P A colLo n acc₂ (icur + 1)
              (if P.has_weight then wcur + 1 else wcur) = none) ↔
            ∃ k < n + 1, bad_index A (icur + (k : ℤ)) := by
        intro acc₂
        rw [ih acc₂ (icur + 1) (if P.has_weight then wcur + 1 else wcur)]
        constructor
        · rintro ⟨k, hk, hbad⟩
          refine ⟨k + 1, by omega, ?_⟩
          have : icur + ((k : ℤ) + 1) = icur + 1 + (k : ℤ) := by omega
          push_cast
          rw [this]
          exact hbad
        · rintro ⟨k, hk, hbad⟩
          match k with
          | 0 => exact absurd (by simpa [bad_index] using hbad) hb
          | k + 1 =>
            refine ⟨k, by omega, ?_⟩
            have : icur + 1 + (k : ℤ) = icur + ((k : ℤ) + 1) := by omega
            rw [this]
            push_cast at hbad
            exact hbad
      rcases ht : A.table with _ | t
      · rw [show middle_loop P A colLo (n + 1) acc icur wcur =
            middle_loop P A colLo n
              (accumulate P A.input (readZ A.indices icur).toNat (readQ A.weights wcur)
                colLo acc) (icur + 1) (if P.has_weight then wcur + 1 else wcur) by
          simp only [middle_loop, if_neg hb, ht]]
        exact hshift _
      · by_cases hr : readZ t (readZ A.indices icur) = -1
        · rw [show middle_loop P A colLo (n + 1) acc icur wcur =
              middle_loop P A colLo n acc (icur + 1)
                (if P.has_weight then wcur + 1 else wcur) by
            simp only [middle_loop, if_neg hb, ht, if_pos hr]]
          exact hshift _
        · rw [show middle_loop P A colLo (n + 1) acc icur wcur =
              middle_loop P A colLo n
                (accumulate P A.input (readZ t (readZ A.indices icur)).toNat
                  (readQ A.weights wcur) colLo acc) (icur + 1)
                (if P.has_weight then wcur + 1 else wcur) by
            simp only [middle_loop, if_neg hb, ht, if_neg hr]]
          exact hshift _

theorem fma_row_length (P : KernelSig) (input : List ℕ) (row : ℕ) (sc bs : ℚ) :
    ∀ (c : ℕ) (acc : List ℚ), (fma_row P input row sc bs c acc).length = acc.length := by
  intro c acc
  induction acc generalizing c with
  | nil => simp [fma_row]
  | cons a acc ih => simp [fma_row, ih]

theorem accumulate_length (P : KernelSig) (input : List ℕ) (row : ℕ) (w : ℚ)
    (colLo : ℕ) (acc : List ℚ) :
    (accumulate P input row w colLo acc).length = acc.length := by
  unfold accumulate
  exact fma_row_length P input row _ _ colLo acc

/-- When `has_weight` is off, the per-index weight does not enter the
accumulation. -/
theorem accumulate_w_irrel (P : KernelSig) (hw : P.has_weight = false)
    (input : List ℕ) (row : ℕ) (w w' : ℚ) (colLo : ℕ) (acc : List ℚ) :
    accumulate P input row w colLo acc = accumulate P input row w' colLo acc := by
  simp [accumulate, hw]

/-- On success the middle loop keeps the accumulator vector's length. -/
theorem middle_loop_acc_length (P : KernelSig) (A : KernelArgs) (colLo : ℕ) :
    ∀ (n : ℕ) (acc : List ℚ) (icur wcur : ℤ) (res : List ℚ × ℤ × ℤ),
      middle_loop P A colLo n acc icur wcur = some res →
      res.1.length = acc.length := by
  intro n
  induction n with
  | zero =>
    intro acc icur wcur res h
    simp only [middle_loop, Option.some.injEq] at h
    subst h
    rfl
  | succ n ih =>
    intro acc icur wcur res h
    by_cases hb : (readZ A.indices icur < 0 ∨ A.data_size ≤ readZ A.indices icur)
    · simp only [middle_loop, if_pos hb] at h
      exact absurd h (by simp)
    · rcases ht : A.table with _ | t
      · simp only [middle_loop, if_neg hb, ht] at h
        rw [ih _ _ _ _ h, accumulate_length]
      · by_cases hr : readZ t (readZ A.indices icur) = -1
        · simp only [middle_loop, if_neg hb, ht, if_pos hr] at h
          exact ih _ _ _ _ h
        · simp only [middle_loop, if_neg hb, ht, if_neg hr] at h
          rw [ih _ _ _ _ h, accumulate_length]

theorem write_slice_length : ∀ (out : List ℚ) (p : ℕ) (vals : List ℚ),
    (write_slice out p vals).length = out.length := by
  intro out
  induction out with
  | nil => intro p vals; simp [write_slice]
  | cons a out ih =>
    intro p vals
    match p, vals with
    | 0, [] => simp [write_slice]
    | 0, v :: vals => simp [write_slice, ih]
    | p + 1, vals => simp [write_slice, ih]

/-- Pointwise description of a tile-group store. -/
theorem write_slice_getD : ∀ (out : List ℚ) (p : ℕ) (vals : List ℚ) (i : ℕ),
    (write_slice out p vals).getD i 0 =
      if p ≤ i ∧ i - p < vals.length ∧ i < out.length then vals.getD (i - p) 0
      else out.getD i 0 := by
  intro out
  induction out with
  | nil =>
    intro p vals i
    simp [write_slice]
  | cons a out ih =>
    intro p vals i
    match p, vals with
    | 0, [] =>
      simp [write_slice]
    | 0, v :: vals =>
      match i with
      | 0 => simp [write_slice]
      | i + 1 =>
        simp only [write_slice, List.getD_cons_succ]
        rw [ih]
        simp only [List.length_cons, Nat.zero_le, true_and, Nat.sub_zero]
        split_ifs <;> first | rfl | omega
    | p + 1, vals =>
      match i with
      | 0 =>
        simp only [write_slice, List.getD_cons_zero]
        split_ifs <;> first | rfl | omega
      | i + 1 =>
        simp only [write_slice, List.getD_cons_succ]
        rw [ih]
        have hsub : i + 1 - (p + 1) = i - p := by omega
        simp only [List.length_cons, hsub]
        split_ifs <;> first | rfl | omega

/-- If the per-bag guard fails or some index of the bag is out of range, the
tile-group loop hits the error exit before storing anything: the output
buffer comes back untouched. -/
theorem bag_loop_none (P : KernelSig) (A : KernelArgs) (len : ℤ) (vinv : ℚ) (base : ℕ)
    (g vecIdx : ℕ) (icur wcur : ℤ) (out : List ℚ)
    (hfail : A.index_size < icur + len ∨ ∃ k < len.toNat, bad_index A (icur + (k : ℤ))) :
    bag_loop P A len vinv base (g + 1) vecIdx icur wcur out = (none, out) := by
  by_cases hg : A.index_size < icur + len
  · simp only [bag_loop, if_pos hg]
  · have hbad : ∃ k < len.toNat, bad_index A (icur + (k : ℤ)) := by
      rcases hfail with h | h
      · exact absurd h hg
      · exact h
    have hnone := (middle_loop_none_iff P A (vecIdx * vlen P.isa) len.toNat
      (List.replicate
        (min P.block_size
            ((vecIdx + min (unroll_factor P) (num_vec_regs_per_block P - vecIdx)) *
              vlen P.isa) - vecIdx * vlen P.isa) 0) icur wcur).mpr hbad
    simp only [bag_loop, if_neg hg, hnone]

/-- Conversely, if the tile-group loop comes back with cursors, the guard
held and every index of the bag was in range. -/
theorem bag_loop_some_inv (P : KernelSig) (A : KernelArgs) (len : ℤ) (vinv : ℚ)
    (base : ℕ) (g vecIdx : ℕ) (icur wcur : ℤ) (out : List ℚ) (c : ℤ × ℤ) (out' : List ℚ)
    (h : bag_loop P A len vinv base (g + 1) vecIdx icur wcur out = (some c, out')) :
    ¬(A.index_size < icur + len) ∧ ∀ k < len.toNat, ¬bad_index A (icur + (k : ℤ)) := by
  by_cases hfail : A.index_size < icur + len ∨ ∃ k < len.toNat, bad_index A (icur + (k : ℤ))
  · rw [bag_loop_none P A len vinv base g vecIdx icur wcur out hfail] at h
    exact absurd (congrArg Prod.fst h) (by simp)
  · push_neg at hfail
    exact ⟨not_lt.mpr hfail.1, hfail.2⟩

/-- One successful pass of the tile-group loop, as a rewrite step. -/
theorem bag_loop_step (P : KernelSig) (A : KernelArgs) (len : ℤ) (vinv : ℚ)
    (base g vecIdx : ℕ) (icur wcur : ℤ) (out : List ℚ) (acc : List ℚ)
    (icur' wcur' ic2 wc2 : ℤ)
    (hguard : ¬(A.index_size < icur + len))
    (hm : middle_loop P A (vecIdx * vlen P.isa) len.toNat
      (List.replicate
        (min P.block_size
            ((vecIdx + min (unroll_factor P) (num_vec_regs_per_block P - vecIdx)) *
              vlen P.isa) - vecIdx * vlen P.isa) 0) icur wcur = some (acc, icur', wcur'))
    (hreset : reset_cursors P vecIdx len icur' wcur' = (ic2, wc2)) :
    bag_loop P A len vinv base (g + 1) vecIdx icur wcur out =
      bag_loop P A len vinv base g (vecIdx + unroll_factor P) ic2 wc2
        (write_slice out (base + vecIdx * vlen P.isa)
          (if P.normalize_by_lengths then acc.map (· * vinv) else acc)) := by
  simp only [bag_loop, if_neg hguard, hm, hreset]

/-- Tile groups only store inside the current bag's output row. -/
theorem bag_loop_getD_outside (P : KernelSig) (A : KernelArgs) (len : ℤ) (vinv : ℚ)
    (base : ℕ) :
    ∀ (g vecIdx : ℕ) (icur wcur : ℤ) (out : List ℚ) (i : ℕ),
      (i < base ∨ base + P.block_size ≤ i) →
      ((bag_loop P A len vinv base g vecIdx icur wcur out).2).getD i 0 =
        out.getD i 0 := by
  intro g
  induction g with
  | zero => intro vecIdx icur wcur out i _; rfl
  | succ g ih =>
    intro vecIdx icur wcur out i hi
    by_cases hg : A.index_size < icur + len
    · simp only [bag_loop, if_pos hg]
    · simp only [bag_loop, if_neg hg]
      rcases hm : middle_loop P A (vecIdx * vlen P.isa) len.toNat
          (List.replicate
            (min P.block_size
                ((vecIdx + min (unroll_factor P) (num_vec_regs_per_block P - vecIdx)) *
                  vlen P.isa) - vecIdx * vlen P.isa) 0) icur wcur with _ | res
      · rfl
      · obtain ⟨acc, icur', wcur'⟩ := res
        have hlen : acc.length =
            min P.block_size
                ((vecIdx + min (unroll_factor P) (num_vec_regs_per_block P - vecIdx)) *
                  vlen P.isa) - vecIdx * vlen P.isa := by
          have := middle_loop_acc_length P A (vecIdx * vlen P.isa) len.toNat _ icur wcur _ hm
          simpa using this
        rw [ih]
        · rw [write_slice_getD]
          have hmin : min P.block_size
              ((vecIdx + min (unroll_factor P) (num_vec_regs_per_block P - vecIdx)) *
                vlen P.isa) ≤ P.block_size := Nat.min_le_left _ _
          have hvl : (if P.normalize_by_lengths then acc.map (· * vinv) else acc).length =
              acc.length := by split_ifs <;> simp
          rw [if_neg]
          rw [hvl, hlen]
          omega
        · exact hi

/-- The tile-group loop never changes the output buffer's length. -/
theorem bag_loop_length (P : KernelSig) (A : KernelArgs) (len : ℤ) (vinv : ℚ)
    (base : ℕ) :
    ∀ (g vecIdx : ℕ) (icur wcur : ℤ) (out : List ℚ),
      ((bag_loop P A len vinv base g vecIdx icur wcur out).2).length = out.length := by
  intro g
  induction g with
  | zero => intro vecIdx icur wcur out; rfl
  | succ g ih =>
    intro vecIdx icur wcur out
    by_cases hg : A.index_size < icur + len
    · simp only [bag_loop, if_pos hg]
    · simp only [bag_loop, if_neg hg]
      rcases hm : middle_loop P A (vecIdx * vlen P.isa) len.toNat
          (List.replicate
            (min P.block_size
                ((vecIdx + min (unroll_factor P) (num_vec_regs_per_block P - vecIdx)) *
                  vlen P.isa) - vecIdx * vlen P.isa) 0) icur wcur with _ | res
      · rfl
      · obtain ⟨acc, icur', wcur'⟩ := res
        rw [ih, write_slice_length]

/-- Tile groups after the current one store only at or above their own
starting column. -/
theorem bag_loop_getD_low (P : KernelSig) (A : KernelArgs) (len : ℤ) (vinv : ℚ)
    (base : ℕ) :
    ∀ (g vecIdx : ℕ) (icur wcur : ℤ) (out : List ℚ) (i : ℕ),
      i < base + vecIdx * vlen P.isa →
      ((bag_loop P A len vinv base g vecIdx icur wcur out).2).getD i 0 =
        out.getD i 0 := by
  intro g
  induction g with
  | zero => intro vecIdx icur wcur out i _; rfl
  | succ g ih =>
    intro vecIdx icur wcur out i hi
    by_cases hg : A.index_size < icur + len
    · simp only [bag_loop, if_pos hg]
    · simp only [bag_loop, if_neg hg]
      rcases hm : middle_loop P A (vecIdx * vlen P.isa) len.toNat
          (List.replicate
            (min P.block_size
                ((vecIdx + min (unroll_factor P) (num_vec_regs_per_block P - vecIdx)) *
                  vlen P.isa) - vecIdx * vlen P.isa) 0) icur wcur with _ | res
      · rfl
      · obtain ⟨acc, icur', wcur'⟩ := res
        rw [ih]
        · rw [write_slice_getD, if_neg]
          omega
        · have : vecIdx * vlen P.isa ≤ (vecIdx + unroll_factor P) * vlen P.isa :=
            Nat.mul_le_mul_right _ (by omega)
          omega

/-- On a bag whose guard holds and whose indices are all in range, the
tile-group loop runs to completion; the `indices` cursor ends just past the
bag, and the `weights` cursor ends at the bag's start under positional
weights, just past it otherwise. -/
theorem bag_loop_run (P : KernelSig) (A : KernelArgs) (hbs : 0 < P.block_size)
    (len : ℤ) (hlen : 0 ≤ len) (vinv : ℚ) (base : ℕ) :
    ∀ (g : ℕ), 1 ≤ g → g ≤ num_groups P →
    ∀ (icur wcur : ℤ) (out : List ℚ),
      ¬(A.index_size < icur + len) →
      (∀ k < len.toNat, ¬bad_index A (icur + (k : ℤ))) →
      ∃ out', bag_loop P A len vinv base g
          ((num_groups P - g) * unroll_factor P) icur wcur out =
        (some (icur + len,
          if P.has_weight then
            (if P.is_weight_positional then wcur else wcur + len)
          else wcur), out') := by
  intro g
  induction g with
  | zero => omega
  | succ g ih =>
    intro hg1 hgG icur wcur out hguard hok
    have hsome : ∃ res, middle_loop P A
        (((num_groups P - (g + 1)) * unroll_factor P) * vlen P.isa) len.toNat
        (List.replicate
          (min P.block_size
              (((num_groups P - (g + 1)) * unroll_factor P +
                  min (unroll_factor P)
                    (num_vec_regs_per_block P -
                      (num_groups P - (g + 1)) * unroll_factor P)) *
                vlen P.isa) - ((num_groups P - (g + 1)) * unroll_factor P) * vlen P.isa)
          0) icur wcur = some res := by
      rcases hm : middle_loop P A _ len.toNat _ icur wcur with _ | res
      · exact absurd ((middle_loop_none_iff P A _ len.toNat _ icur wcur).mp hm)
          (by push_neg; exact hok)
      · exact ⟨res, rfl⟩
    obtain ⟨⟨acc, icur', wcur'⟩, hm⟩ := hsome
    obtain ⟨hic, hwc⟩ := middle_loop_cursors P A _ len.toNat _ icur wcur _ hm
    simp only at hic hwc
    have hlen' : (len.toNat : ℤ) = len := Int.toNat_of_nonneg hlen
    cases g with
    | zero =>
      -- final group: no further unroll group follows
      have hnm := no_more_groups_last P hbs
      have hreset : reset_cursors P ((num_groups P - (0 + 1)) * unroll_factor P)
          len icur' wcur' =
          (icur + len,
            if P.has_weight then
              (if P.is_weight_positional then wcur else wcur + len)
            else wcur) := by
        have hnm' : ¬((num_groups P - (0 + 1)) * unroll_factor P + unroll_factor P <
            num_vec_regs_per_block P) := by simpa using hnm
        unfold reset_cursors
        by_cases hw : P.has_weight <;> by_cases hpos : P.is_weight_positional <;>
          simp only [hw, hpos, hnm', false_or, and_self, and_false, true_and,
            if_true, if_false, Bool.false_eq_true, false_and, if_neg hnm'] <;>
          simp only [hw, hwc, hic, if_true, if_false] <;>
          rw [Prod.mk.injEq] <;> constructor <;> simp <;> omega
      simp only [bag_loop, if_neg hguard, hm, hreset]
      exact ⟨_, rfl⟩
    | succ g' =>
      have hmore := more_groups_of_two_le P hbs (g' + 1 + 1) (by omega) hgG
      have hreset : reset_cursors P ((num_groups P - (g' + 1 + 1)) * unroll_factor P)
          len icur' wcur' = (icur, wcur) := by
        unfold reset_cursors
        rw [if_pos (Or.inl hmore), if_pos hmore]
        by_cases hw : P.has_weight <;>
          simp only [hw, hwc, hic, if_true, if_false] <;>
          rw [Prod.mk.injEq] <;> constructor <;> simp <;> omega
      have hv : (num_groups P - (g' + 1 + 1)) * unroll_factor P + unroll_factor P =
          (num_groups P - (g' + 1)) * unroll_factor P := by
        have h1 : num_groups P - (g' + 1 + 1) + 1 = num_groups P - (g' + 1) := by omega
        calc (num_groups P - (g' + 1 + 1)) * unroll_factor P + unroll_factor P
            = (num_groups P - (g' + 1 + 1) + 1) * unroll_factor P := by ring
          _ = (num_groups P - (g' + 1)) * unroll_factor P := by rw [h1]
      obtain ⟨out'', hrec⟩ := ih (by omega) (by omega) icur wcur
        (write_slice out (base + (num_groups P - (g' + 1 + 1)) * unroll_factor P *
            vlen P.isa)
          (if P.normalize_by_lengths then acc.map (· * vinv) else acc))
        hguard hok
      refine ⟨out'', ?_⟩
      rw [bag_loop_step P A len vinv base (g' + 1) _ icur wcur out acc icur' wcur' _ _
        hguard hm hreset, hv]
      exact hrec

theorem replicate_zero_getD (n j : ℕ) : (List.replicate n (0 : ℚ)).getD j 0 = 0 := by
  rcases lt_or_le j n with h | h
  · rw [List.getD_eq_getElem _ _ (by simpa using h)]
    simp
  · rw [List.getD_eq_default _ _ (by simpa using h)]

/-- On a zero-length bag, the tile-group loop writes zeros over the whole
output row: the accumulators are zero-initialized, the middle loop runs no
iteration, and the optional normalization multiplies zeros by the stored
reciprocal. -/
theorem bag_loop_zero (P : KernelSig) (A : KernelArgs) (hbs : 0 < P.block_size)
    (vinv : ℚ) (base : ℕ) :
    ∀ (g : ℕ), 1 ≤ g → g ≤ num_groups P →
    ∀ (icur wcur : ℤ) (out : List ℚ),
      ¬(A.index_size < icur) →
      ∀ i : ℕ, (num_groups P - g) * unroll_factor P * vlen P.isa ≤ i →
        i < P.block_size →
        ((bag_loop P A 0 vinv base g ((num_groups P - g) * unroll_factor P) icur wcur
            out).2).getD (base + i) 0 = 0 := by
  intro g
  induction g with
  | zero => omega
  | succ g ih =>
    intro hg1 hgG icur wcur out hguard i hlo hhi
    have hguard' : ¬(A.index_size < icur + 0) := by simpa using hguard
    have hm : middle_loop P A
        (((num_groups P - (g + 1)) * unroll_factor P) * vlen P.isa) (0 : ℤ).toNat
        (List.replicate
          (min P.block_size
              (((num_groups P - (g + 1)) * unroll_factor P +
                  min (unroll_factor P)
                    (num_vec_regs_per_block P -
                      (num_groups P - (g + 1)) * unroll_factor P)) *
                vlen P.isa) - ((num_groups P - (g + 1)) * unroll_factor P) * vlen P.isa)
          0) icur wcur =
        some (List.replicate
          (min P.block_size
              (((num_groups P - (g + 1)) * unroll_factor P +
                  min (unroll_factor P)
                    (num_vec_regs_per_block P -
                      (num_groups P - (g + 1)) * unroll_factor P)) *
                vlen P.isa) - ((num_groups P - (g + 1)) * unroll_factor P) * vlen P.isa)
          0, icur, wcur) := rfl
    have hvals : ∀ n : ℕ,
        (if P.normalize_by_lengths then (List.replicate n (0 : ℚ)).map (· * vinv)
          else List.replicate n (0 : ℚ)) = List.replicate n (0 : ℚ) := by
      intro n
      split_ifs <;> simp
    cases g with
    | zero =>
      simp only [Nat.zero_add] at hm hlo ⊢
      have hch := group_cols_last P hbs
      rw [bag_loop_step P A 0 vinv base 0 _ icur wcur out _ icur wcur icur wcur
        hguard' hm (by unfold reset_cursors; split_ifs <;> simp)]
      simp only [bag_loop]
      rw [write_slice_getD, hvals]
      simp only [List.length_replicate, hch]
      split_ifs with hcond
      · exact replicate_zero_getD _ _
      · -- outside the write: only possible past the buffer end, where getD is 0
        have hlenle : out.length ≤ base + i := by
          by_contra hcl
          push_neg at hcl
          exact hcond ⟨by omega, by omega, hcl⟩
        rw [List.getD_eq_default _ _ hlenle]
    | succ g' =>
      have hmore := more_groups_of_two_le P hbs (g' + 1 + 1) (by omega) hgG
      obtain ⟨hcur, hch⟩ := group_cols_middle P hbs (g' + 1 + 1) (by omega) hgG
      have hreset : reset_cursors P ((num_groups P - (g' + 1 + 1)) * unroll_factor P)
          0 icur wcur = (icur, wcur) := by
        unfold reset_cursors
        rw [if_pos (Or.inl hmore), if_pos hmore]
        split_ifs <;> simp
      rw [bag_loop_step P A 0 vinv base (g' + 1) _ icur wcur out _ icur wcur icur wcur
        hguard' hm hreset]
      have hv : (num_groups P - (g' + 1 + 1)) * unroll_factor P + unroll_factor P =
          (num_groups P - (g' + 1)) * unroll_factor P := by
        have h1 : num_groups P - (g' + 1 + 1) + 1 = num_groups P - (g' + 1) := by omega
        calc (num_groups P - (g' + 1 + 1)) * unroll_factor P + unroll_factor P
            = (num_groups P - (g' + 1 + 1) + 1) * unroll_factor P := by ring
          _ = (num_groups P - (g' + 1)) * unroll_factor P := by rw [h1]
      by_cases hcase :
          ((num_groups P - (g' + 1 + 1)) * unroll_factor P + unroll_factor P) *
            vlen P.isa ≤ i
      · rw [hv]
        exact ih (by omega) (by omega) icur wcur _ hguard i (by rw [← hv]; exact hcase)
          hhi
      · push_neg at hcase
        rw [bag_loop_getD_low]
        · rw [write_slice_getD, hvals]
          simp only [List.length_replicate, hcur, hch]
          split_ifs with hcond
          · exact replicate_zero_getD _ _
          · have hlenle : out.length ≤ base + i := by
              by_contra hcl
              push_neg at hcl
              exact hcond ⟨by omega, by omega, hcl⟩
            rw [List.getD_eq_default _ _ hlenle]
        · omega

theorem readZ_nonneg (l : List ℤ) (h : ∀ x ∈ l, 0 ≤ x) (c : ℤ) : 0 ≤ readZ l c := by
  unfold readZ
  split_ifs
  · exact le_refl 0
  · rcases lt_or_le c.toNat l.length with hlt | hle
    · rw [List.getD_eq_getElem _ _ hlt]
      exact h _ (List.getElem_mem hlt)
    · rw [List.getD_eq_default _ _ hle]

theorem outer_loop_length (P : KernelSig) (A : KernelArgs) :
    ∀ (r bag : ℕ) (icur wcur : ℤ) (out : List ℚ),
      ((outer_loop P A r bag icur wcur out).2.1).length = out.length := by
  intro r
  induction r with
  | zero => intro bag icur wcur out; rfl
  | succ r ih =>
    intro bag icur wcur out
    rcases hb : bag_loop P A (readZ A.lengths (bag : ℤ))
        (vlen_inv_val (readZ A.lengths (bag : ℤ))) (bag * P.block_size)
        (num_groups P) 0 icur wcur out with ⟨st, out'⟩
    have hlen : out'.length = out.length := by
      have h := bag_loop_length P A (readZ A.lengths (bag : ℤ))
        (vlen_inv_val (readZ A.lengths (bag : ℤ))) (bag * P.block_size)
        (num_groups P) 0 icur wcur out
      rw [hb] at h
      exact h
    rcases st with _ | ⟨icur', wcur'⟩
    · simp only [outer_loop, hb]
      exact hlen
    · simp only [outer_loop, hb]
      rw [ih, hlen]

/-- Bags from `bag` on never store below `bag`'s output row. -/
theorem outer_loop_getD_before (P : KernelSig) (A : KernelArgs) :
    ∀ (r bag : ℕ) (icur wcur : ℤ) (out : List ℚ) (i : ℕ),
      i < bag * P.block_size →
      ((outer_loop P A r bag icur wcur out).2.1).getD i 0 = out.getD i 0 := by
  intro r
  induction r with
  | zero => intro bag icur wcur out i _; rfl
  | succ r ih =>
    intro bag icur wcur out i hi
    rcases hb : bag_loop P A (readZ A.lengths (bag : ℤ))
        (vlen_inv_val (readZ A.lengths (bag : ℤ))) (bag * P.block_size)
        (num_groups P) 0 icur wcur out with ⟨st, out'⟩
    have hout' : out'.getD i 0 = out.getD i 0 := by
      have h := bag_loop_getD_outside P A (readZ A.lengths (bag : ℤ))
        (vlen_inv_val (readZ A.lengths (bag : ℤ))) (bag * P.block_size)
        (num_groups P) 0 icur wcur out i (Or.inl hi)
      rw [hb] at h
      exact h
    rcases st with _ | ⟨icur', wcur'⟩
    · simp only [outer_loop, hb]
      exact hout'
    · simp only [outer_loop, hb]
      rw [ih _ _ _ _ _ (by
        have : bag * P.block_size ≤ (bag + 1) * P.block_size :=
          Nat.mul_le_mul_right _ (by omega)
        omega)]
      exact hout'

/-- The generated kernel returns `true` exactly when every bag passes its
guard, every index read is in range, and the cursor ends at the end
pointer. -/
theorem outer_loop_ok_iff (P : KernelSig) (A : KernelArgs) (hbs : 0 < P.block_size)
    (h0 : ∀ x ∈ A.lengths, 0 ≤ x) :
    ∀ (r bag : ℕ) (icur wcur : ℤ) (out : List ℚ),
      ((outer_loop P A r bag icur wcur out).1 = true ↔ loop_ok A r bag icur) := by
  intro r
  induction r with
  | zero =>
    intro bag icur wcur out
    simp [outer_loop, loop_ok]
  | succ r ih =>
    intro bag icur wcur out
    have hlen : 0 ≤ readZ A.lengths (bag : ℤ) := readZ_nonneg _ h0 _
    by_cases hfail : A.index_size < icur + readZ A.lengths (bag : ℤ) ∨
        ∃ k < (readZ A.lengths (bag : ℤ)).toNat, bad_index A (icur + (k : ℤ))
    · obtain ⟨m, hm⟩ : ∃ m, num_groups P = m + 1 :=
        ⟨num_groups P - 1, by have := num_groups_pos P hbs; omega⟩
      have hb := bag_loop_none P A (readZ A.lengths (bag : ℤ))
        (vlen_inv_val (readZ A.lengths (bag : ℤ))) (bag * P.block_size) m 0 icur wcur
        out hfail
      rw [← hm] at hb
      simp only [outer_loop, hb]
      constructor
      · intro h
        exact absurd h (by simp)
      · intro h
        exfalso
        rcases hfail with h1 | ⟨k, hk, hbad⟩
        · simp only [loop_ok] at h
          omega
        · simp only [loop_ok] at h
          exact (h.2.1 k hk) hbad
    · push_neg at hfail
      obtain ⟨hguard, hok⟩ := hfail
      obtain ⟨out', hbag⟩ := bag_loop_run P A hbs (readZ A.lengths (bag : ℤ)) hlen
        (vlen_inv_val (readZ A.lengths (bag : ℤ))) (bag * P.block_size) (num_groups P)
        (num_groups_pos P hbs) le_rfl icur wcur out (not_lt.mpr hguard) hok
      rw [show (num_groups P - num_groups P) * unroll_factor P = 0 by simp] at hbag
      simp only [outer_loop, hbag]
      rw [ih]
      simp only [loop_ok]
      constructor
      · intro h
        exact ⟨hguard, hok, h⟩
      · intro h
        exact h.2.2

/-- On a failing run: the bag counter sits between the current bag and the
fuel bound, the buffer equals the buffer of the run truncated to the
completed bags, and nothing at or above the failing bag's row was stored. -/
theorem outer_loop_fail (P : KernelSig) (A : KernelArgs) (hbs : 0 < P.block_size)
    (h0 : ∀ x ∈ A.lengths, 0 ≤ x) :
    ∀ (r bag : ℕ) (icur wcur : ℤ) (out : List ℚ),
      (outer_loop P A r bag icur wcur out).1 = false →
      bag ≤ (outer_loop P A r bag icur wcur out).2.2 ∧
      (outer_loop P A r bag icur wcur out).2.2 ≤ bag + r ∧
      (outer_loop P A ((outer_loop P A r bag icur wcur out).2.2 - bag) bag icur wcur
          out).2.1 = (outer_loop P A r bag icur wcur out).2.1 ∧
      ∀ i : ℕ, (outer_loop P A r bag icur wcur out).2.2 * P.block_size ≤ i →
        ((outer_loop P A r bag icur wcur out).2.1).getD i 0 = out.getD i 0 := by
  intro r
  induction r with
  | zero =>
    intro bag icur wcur out _
    simp only [outer_loop]
    refine ⟨le_rfl, by omega, ?_, fun i _ => trivial⟩
    rw [Nat.sub_self]
    simp only [outer_loop]
  | succ r ih =>
    intro bag icur wcur out hfalse
    have hlen : 0 ≤ readZ A.lengths (bag : ℤ) := readZ_nonneg _ h0 _
    by_cases hfail : A.index_size < icur + readZ A.lengths (bag : ℤ) ∨
        ∃ k < (readZ A.lengths (bag : ℤ)).toNat, bad_index A (icur + (k : ℤ))
    · obtain ⟨m, hm⟩ : ∃ m, num_groups P = m + 1 :=
        ⟨num_groups P - 1, by have := num_groups_pos P hbs; omega⟩
      have hb := bag_loop_none P A (readZ A.lengths (bag : ℤ))
        (vlen_inv_val (readZ A.lengths (bag : ℤ))) (bag * P.block_size) m 0 icur wcur
        out hfail
      rw [← hm] at hb
      simp only [outer_loop, hb]
      refine ⟨le_rfl, by omega, ?_, fun i _ => trivial⟩
      rw [Nat.sub_self]
      simp only [outer_loop]
    · push_neg at hfail
      obtain ⟨hguard, hok⟩ := hfail
      obtain ⟨out', hbag⟩ := bag_loop_run P A hbs (readZ A.lengths (bag : ℤ)) hlen
        (vlen_inv_val (readZ A.lengths (bag : ℤ))) (bag * P.block_size) (num_groups P)
        (num_groups_pos P hbs) le_rfl icur wcur out (not_lt.mpr hguard) hok
      rw [show (num_groups P - num_groups P) * unroll_factor P = 0 by simp] at hbag
      have hfalse' : (outer_loop P A r (bag + 1)
          (icur + readZ A.lengths (bag : ℤ))
          (if P.has_weight then
            (if P.is_weight_positional then wcur else wcur + readZ A.lengths (bag : ℤ))
          else wcur) out').1 = false := by
        rw [show (outer_loop P A r (bag + 1) (icur + readZ A.lengths (bag : ℤ)) _
            out') = outer_loop P A (r + 1) bag icur wcur out by
          simp only [outer_loop, hbag]]
        exact hfalse
      obtain ⟨ih1, ih2, ih3, ih4⟩ := ih (bag + 1) (icur + readZ A.lengths (bag : ℤ)) _
        out' hfalse'
      have hres : outer_loop P A (r + 1) bag icur wcur out =
          outer_loop P A r (bag + 1) (icur + readZ A.lengths (bag : ℤ))
            (if P.has_weight then
              (if P.is_weight_positional then wcur
                else wcur + readZ A.lengths (bag : ℤ))
            else wcur) out' := by
        simp only [outer_loop, hbag]
      rw [hres]
      refine ⟨by omega, by omega, ?_, ?_⟩
      · rw [show (outer_loop P A r (bag + 1) (icur + readZ A.lengths (bag : ℤ))
            (if P.has_weight then
              (if P.is_weight_positional then wcur
                else wcur + readZ A.lengths (bag : ℤ))
            else wcur) out').2.2 - bag =
          ((outer_loop P A r (bag + 1) (icur + readZ A.lengths (bag : ℤ))
            (if P.has_weight then
              (if P.is_weight_positional then wcur
                else wcur + readZ A.lengths (bag : ℤ))
            else wcur) out').2.2 - (bag + 1)) + 1 by omega]
        simp only [outer_loop, hbag]
        exact ih3
      · intro i hi
        rw [ih4 i hi]
        have hout' : out'.getD i 0 = out.getD i 0 := by
          have h := bag_loop_getD_outside P A (readZ A.lengths (bag : ℤ))
            (vlen_inv_val (readZ A.lengths (bag : ℤ))) (bag * P.block_size)
            (num_groups P) 0 icur wcur out i (Or.inr (by
              have h1 : (bag + 1) * P.block_size ≤
                  (outer_loop P A r (bag + 1) (icur + readZ A.lengths (bag : ℤ))
                    (if P.has_weight then
                      (if P.is_weight_positional then wcur
                        else wcur + readZ A.lengths (bag : ℤ))
                    else wcur) out').2.2 * P.block_size :=
                Nat.mul_le_mul_right _ ih1
              have h2 : bag * P.block_size + P.block_size = (bag + 1) * P.block_size := by
                ring
              omega))
          rw [hbag] at h
          exact h
        exact hout'

/-- On a successful run, a zero-length bag's output row reads all zero. -/
theorem outer_loop_zero_bag (P : KernelSig) (A : KernelArgs) (hbs : 0 < P.block_size)
    (h0 : ∀ x ∈ A.lengths, 0 ≤ x) :
    ∀ (r bag : ℕ) (icur wcur : ℤ) (out : List ℚ) (b : ℕ),
      (outer_loop P A r bag icur wcur out).1 = true →
      bag ≤ b → b < bag + r → readZ A.lengths (b : ℤ) = 0 →
      ∀ i : ℕ, i < P.block_size →
        ((outer_loop P A r bag icur wcur out).2.1).getD (b * P.block_size + i) 0 =
          0 := by
  intro r
  induction r with
  | zero => intro bag icur wcur out b _ _ h; omega
  | succ r ih =>
    intro bag icur wcur out b hsucc hb1 hb2 hlen0 i hhi
    have hlen : 0 ≤ readZ A.lengths (bag : ℤ) := readZ_nonneg _ h0 _
    rcases hbag : bag_loop P A (readZ A.lengths (bag : ℤ))
        (vlen_inv_val (readZ A.lengths (bag : ℤ))) (bag * P.block_size)
        (num_groups P) 0 icur wcur out with ⟨st, out'⟩
    rcases st with _ | ⟨icur', wcur'⟩
    · have hf : (outer_loop P A (r + 1) bag icur wcur out).1 = false := by
        simp only [outer_loop, hbag]
      rw [hf] at hsucc
      exact absurd hsucc (by simp)
    · have hres : outer_loop P A (r + 1) bag icur wcur out =
          outer_loop P A r (bag + 1) icur' wcur' out' := by
        simp only [outer_loop, hbag]
      rcases Nat.eq_or_lt_of_le hb1 with hbe | hblt
      · -- the zero-length bag is the current one
        subst hbe
        obtain ⟨m, hm⟩ : ∃ m, num_groups P = m + 1 :=
          ⟨num_groups P - 1, by have := num_groups_pos P hbs; omega⟩
        have hguard : ¬(A.index_size < icur) := by
          rw [hm] at hbag
          have h := bag_loop_some_inv P A (readZ A.lengths (bag : ℤ))
            (vlen_inv_val (readZ A.lengths (bag : ℤ))) (bag * P.block_size) m 0 icur
            wcur out _ _ hbag
          rw [hlen0] at h
          have := h.1
          omega
        have hz := bag_loop_zero P A hbs (vlen_inv_val (readZ A.lengths (bag : ℤ)))
          (bag * P.block_size) (num_groups P) (num_groups_pos P hbs) le_rfl icur wcur
          out hguard i (by simp) hhi
        rw [show (num_groups P - num_groups P) * unroll_factor P = 0 by simp,
          ← hlen0, hbag] at hz
        rw [hres]
        rw [outer_loop_getD_before P A r (bag + 1) icur' wcur' out'
          (bag * P.block_size + i) (by
            have h2 : bag * P.block_size + P.block_size = (bag + 1) * P.block_size := by
              ring
            omega)]
        exact hz
      · rw [hres]
        rw [hres] at hsucc
        exact ih (bag + 1) icur' wcur' out' b hsucc hblt (by omega) hlen0 i hhi

theorem lens_sum_nonneg (A : KernelArgs) (h0 : ∀ x ∈ A.lengths, 0 ≤ x) :
    ∀ (r bag : ℕ), 0 ≤ lens_sum A bag r := by
  intro r
  induction r with
  | zero => intro bag; simp [lens_sum]
  | succ r ih =>
    intro bag
    have := readZ_nonneg A.lengths h0 (bag : ℤ)
    have := ih (bag + 1)
    simp only [lens_sum]
    omega

/-- `loop_ok` flattened: the cursor must land exactly on the end pointer and
every position under the summed lengths must hold an in-range index. -/
theorem loop_ok_flat (A : KernelArgs) (h0 : ∀ x ∈ A.lengths, 0 ≤ x) :
    ∀ (r bag : ℕ) (icur : ℤ),
      loop_ok A r bag icur ↔
        (icur + lens_sum A bag r = A.index_size ∧
          ∀ c : ℤ, icur ≤ c → c < icur + lens_sum A bag r → ¬bad_index A c) := by
  intro r
  induction r with
  | zero =>
    intro bag icur
    simp only [loop_ok, lens_sum]
    constructor
    · intro h
      exact ⟨by omega, fun c h1 h2 => absurd h2 (by omega)⟩
    · intro h
      omega
  | succ r ih =>
    intro bag icur
    have hl : 0 ≤ readZ A.lengths (bag : ℤ) := readZ_nonneg _ h0 _
    have hs : 0 ≤ lens_sum A (bag + 1) r := lens_sum_nonneg A h0 r (bag + 1)
    simp only [loop_ok, lens_sum]
    constructor
    · rintro ⟨h1, h2, h3⟩
      obtain ⟨h4, h5⟩ := (ih (bag + 1) (icur + readZ A.lengths (bag : ℤ))).mp h3
      refine ⟨by omega, ?_⟩
      intro c hc1 hc2
      by_cases hcl : c < icur + readZ A.lengths (bag : ℤ)
      · have hb := h2 (c - icur).toNat (by omega)
        rw [show icur + (((c - icur).toNat : ℕ) : ℤ) = c by omega] at hb
        exact hb
      · exact h5 c (by omega) (by omega)
    · rintro ⟨h1, h2⟩
      refine ⟨by omega, ?_, ?_⟩
      · intro k hk
        exact h2 (icur + (k : ℤ)) (by omega) (by omega)
      · rw [ih (bag + 1) (icur + readZ A.lengths (bag : ℤ))]
        refine ⟨by omega, ?_⟩
        intro c hc1 hc2
        exact h2 c (by omega) (by omega)

/-- The summed lengths the kernel reads are the list sum, when the bag count
matches the list. -/
theorem lens_sum_eq (A : KernelArgs) :
    ∀ (r bag : ℕ), bag + r = A.lengths.length →
      lens_sum A bag r = (A.lengths.drop bag).sum := by
  intro r
  induction r with
  | zero =>
    intro bag hb
    rw [show bag = A.lengths.length by omega, List.drop_length]
    simp [lens_sum]
  | succ r ih =>
    intro bag hb
    have hblt : bag < A.lengths.length := by omega
    have hread : readZ A.lengths (bag : ℤ) = A.lengths[bag] := by
      unfold readZ
      rw [if_neg (by omega), Int.toNat_natCast, List.getD_eq_getElem _ _ hblt]
    rw [List.drop_eq_getElem_cons hblt]
    simp only [lens_sum, List.sum_cons, hread]
    rw [ih (bag + 1) (by omega)]

/-- "Every index read is in range" over the whole stream, as a membership
statement about `indices`. -/
theorem good_indices_iff (A : KernelArgs) (hI : A.index_size = (A.indices.length : ℤ)) :
    (∀ c : ℤ, 0 ≤ c → c < A.index_size → ¬bad_index A c) ↔
      ∀ v ∈ A.indices, 0 ≤ v ∧ v < A.data_size := by
  constructor
  · intro h v hv
    obtain ⟨j, hj, hjv⟩ := List.mem_iff_getElem.mp hv
    have hc := h (j : ℤ) (by omega) (by rw [hI]; exact_mod_cast hj)
    unfold bad_index readZ at hc
    rw [if_neg (by omega), Int.toNat_natCast, List.getD_eq_getElem _ _ hj, hjv] at hc
    push_neg at hc
    exact hc
  · intro h c h1 h2
    unfold bad_index readZ
    rw [if_neg (by omega)]
    rw [hI] at h2
    have hlt : c.toNat < A.indices.length := by omega
    rw [List.getD_eq_getElem _ _ hlt]
    have hg := h _ (List.getElem_mem hlt)
    rintro (hx | hx) <;> omega

/-! ## The claims -/

/-- C1: under the input contract (`block_size ≥ 1`, non-negative lengths, one
length per bag, `index_size` counting the index stream), a kernel invocation
— dense or rowwise-sparse alike — returns `false` exactly when the summed
lengths miss `index_size` or some index lies outside `[0, data_size)`; and on
`false` no bag after the failing one has been written. -/
theorem claim_C1 (P : KernelSig) (A : KernelArgs) (out0 : List ℚ)
    (hbs : 0 < P.block_size) (h0 : ∀ x ∈ A.lengths, 0 ≤ x)
    (hL : A.lengths.length = A.output_size)
    (hI : A.index_size = (A.indices.length : ℤ)) :
    ((run_kernel P A out0).1 = false ↔
      ¬(A.lengths.sum = A.index_size ∧ ∀ v ∈ A.indices, 0 ≤ v ∧ v < A.data_size)) ∧
    ((run_kernel P A out0).1 = false →
      ∀ i : ℕ, ((run_kernel P A out0).2.2 + 1) * P.block_size ≤ i →
        ((run_kernel P A out0).2.1).getD i 0 = out0.getD i 0) := by
  simp only [run_kernel]
  have hiff := outer_loop_ok_iff P A hbs h0 A.output_size 0 0 0 out0
  rw [loop_ok_flat A h0] at hiff
  have hs : lens_sum A 0 A.output_size = A.lengths.sum := by
    have h := lens_sum_eq A A.output_size 0 (by omega)
    simpa using h
  have hgood := good_indices_iff A hI
  constructor
  · rw [Bool.eq_false_iff, Ne, hiff]
    constructor
    · intro hno hcl
      apply hno
      refine ⟨by rw [hs]; omega, ?_⟩
      intro c h1 h2
      exact (hgood.mpr hcl.2) c (by omega) (by rw [hs] at h2; omega)
    · intro hno hflat
      apply hno
      obtain ⟨hf1, hf2⟩ := hflat
      rw [hs] at hf1
      refine ⟨by omega, hgood.mp ?_⟩
      intro c h1 h2
      exact hf2 c (by omega) (by rw [hs]; omega)
  · intro hfalse i hi
    obtain ⟨hb1, hb2, _, hp⟩ := outer_loop_fail P A hbs h0 A.output_size 0 0 0 out0
      hfalse
    refine hp i ?_
    have hmul : (outer_loop P A A.output_size 0 0 0 out0).2.2 * P.block_size ≤
        ((outer_loop P A A.output_size 0 0 0 out0).2.2 + 1) * P.block_size :=
      Nat.mul_le_mul_right _ (by omega)
    omega

/-- C1 witness: a one-bag invocation whose only index `5` is out of range for
`data_size = 2` returns `false` (the sum of lengths does match), and the
output buffer is untouched from the failing bag's row on. -/
theorem claim_C1_witness :
    ((run_kernel ⟨.avx512, 4, 4, false, false, false, 0⟩
        { output_size := 1, index_size := 1, data_size := 2
          input := [], indices := [5], lengths := [1], weights := [], table := none }
        [7, 7, 7, 7]).1 = false ↔
      ¬(([1] : List ℤ).sum = 1 ∧ ∀ v ∈ ([5] : List ℤ), 0 ≤ v ∧ v < 2)) ∧
    ((run_kernel ⟨.avx512, 4, 4, false, false, false, 0⟩
        { output_size := 1, index_size := 1, data_size := 2
          input := [], indices := [5], lengths := [1], weights := [], table := none }
        [7, 7, 7, 7]).1 = false →
      ∀ i : ℕ,
        ((run_kernel ⟨.avx512, 4, 4, false, false, false, 0⟩
            { output_size := 1, index_size := 1, data_size := 2
              input := [], indices := [5], lengths := [1], weights := [], table := none }
            [7, 7, 7, 7]).2.2 + 1) * 4 ≤ i →
        ((run_kernel ⟨.avx512, 4, 4, false, false, false, 0⟩
            { output_size := 1, index_size := 1, data_size := 2
              input := [], indices := [5], lengths := [1], weights := [], table := none }
            [7, 7, 7, 7]).2.1).getD i 0 = ([7, 7, 7, 7] : List ℚ).getD i 0) :=
  claim_C1 ⟨.avx512, 4, 4, false, false, false, 0⟩
    { output_size := 1, index_size := 1, data_size := 2
      input := [], indices := [5], lengths := [1], weights := [], table := none }
    [7, 7, 7, 7] (by decide) (by decide) rfl rfl

/-- C5: a bag of length zero yields an all-zero output row whatever
`normalize_by_lengths` is, because the accumulators start at zero, the middle
loop runs no iteration, and the normalization reciprocal for a zero length is
the stored default `0` (the guard skips the division), not an infinity. -/
theorem claim_C5 (P : KernelSig) (A : KernelArgs) (out0 : List ℚ) (b : ℕ)
    (hbs : 0 < P.block_size) (h0 : ∀ x ∈ A.lengths, 0 ≤ x)
    (hb : b < A.output_size) (hlen0 : readZ A.lengths (b : ℤ) = 0)
    (hsucc : (run_kernel P A out0).1 = true) :
    vlen_inv_val 0 = 0 ∧
    ∀ i : ℕ, i < P.block_size →
      ((run_kernel P A out0).2.1).getD (b * P.block_size + i) 0 = 0 :=
  ⟨by simp [vlen_inv_val],
    fun i hi => outer_loop_zero_bag P A hbs h0 A.output_size 0 0 0 out0 b hsucc
      (by omega) (by omega) hlen0 i hi⟩

/-- C5 witness: one zero-length bag over a nonzero initial buffer, with
`normalize_by_lengths` on; the row reads back zero. -/
theorem claim_C5_witness :
    vlen_inv_val 0 = 0 ∧
    ((run_kernel ⟨.avx512, 4, 4, false, false, true, 0⟩
        { output_size := 1, index_size := 0, data_size := 1
          input := [], indices := [], lengths := [0], weights := [], table := none }
        [7, 7, 7, 7]).2.1).getD (0 * 4 + 3) 0 = 0 :=
  let h := claim_C5 ⟨.avx512, 4, 4, false, false, true, 0⟩
    { output_size := 1, index_size := 0, data_size := 1
      input := [], indices := [], lengths := [0], weights := [], table := none }
    [7, 7, 7, 7] 0 (by decide) (by decide) (by decide) (by decide) (by decide)
  ⟨h.1, h.2 3 (by decide)⟩

/-- C10: when a kernel invocation returns `false`, the buffer equals the
buffer produced by running only the completed bags: earlier bags are fully
written, and from the failing bag's row on nothing was stored — the stores of
a bag are emitted only after its middle loop finishes without error. -/
theorem claim_C10 (P : KernelSig) (A : KernelArgs) (out0 : List ℚ)
    (hbs : 0 < P.block_size) (h0 : ∀ x ∈ A.lengths, 0 ≤ x)
    (hfalse : (run_kernel P A out0).1 = false) :
    (run_kernel P A out0).2.2 ≤ A.output_size ∧
    (outer_loop P A ((run_kernel P A out0).2.2) 0 0 0 out0).2.1 =
      (run_kernel P A out0).2.1 ∧
    ∀ i : ℕ, (run_kernel P A out0).2.2 * P.block_size ≤ i →
      ((run_kernel P A out0).2.1).getD i 0 = out0.getD i 0 := by
  simp only [run_kernel] at hfalse ⊢
  obtain ⟨hb1, hb2, hpre, hp⟩ := outer_loop_fail P A hbs h0 A.output_size 0 0 0 out0
    hfalse
  refine ⟨by omega, ?_, hp⟩
  simpa using hpre

/-- C10 witness: the failing one-bag invocation of the C1 witness leaves the
whole buffer untouched and matches the zero-bag run. -/
theorem claim_C10_witness :
    ((run_kernel ⟨.avx512, 4, 4, false, false, false, 0⟩
        { output_size := 1, index_size := 1, data_size := 2
          input := [], indices := [6], lengths := [1], weights := [], table := none }
        [9, 9, 9, 9]).2.2 ≤ 1) ∧
    (outer_loop ⟨.avx512, 4, 4, false, false, false, 0⟩
        { output_size := 1, index_size := 1, data_size := 2
          input := [], indices := [6], lengths := [1], weights := [], table := none }
        ((run_kernel ⟨.avx512, 4, 4, false, false, false, 0⟩
          { output_size := 1, index_size := 1, data_size := 2
            input := [], indices := [6], lengths := [1], weights := [], table := none }
          [9, 9, 9, 9]).2.2) 0 0 0 [9, 9, 9, 9]).2.1 =
      (run_kernel ⟨.avx512, 4, 4, false, false, false, 0⟩
        { output_size := 1, index_size := 1, data_size := 2
          input := [], indices := [6], lengths := [1], weights := [], table := none }
        [9, 9, 9, 9]).2.1 ∧
    ∀ i : ℕ, (run_kernel ⟨.avx512, 4, 4, false, false, false, 0⟩
        { output_size := 1, index_size := 1, data_size := 2
          input := [], indices := [6], lengths := [1], weights := [], table := none }
        [9, 9, 9, 9]).2.2 * 4 ≤ i →
      ((run_kernel ⟨.avx512, 4, 4, false, false, false, 0⟩
          { output_size := 1, index_size := 1, data_size := 2
            input := [], indices := [6], lengths := [1], weights := [], table := none }
          [9, 9, 9, 9]).2.1).getD i 0 = ([9, 9, 9, 9] : List ℚ).getD i 0 :=
  claim_C10 ⟨.avx512, 4, 4, false, false, false, 0⟩
    { output_size := 1, index_size := 1, data_size := 2
      input := [], indices := [6], lengths := [1], weights := [], table := none }
    [9, 9, 9, 9] (by decide) (by decide) (by decide)

/-- C2: on the dense kernel with `bit_rate=4`, `block_size=4`,
`output_size=1`, `lengths=[2]`, `indices=[0,1]`, `data_size=2`, no weights,
no normalization, row 0 packed as bytes `0x21,0x43` with fp16 scale 1.0
(`0x3c00`) and bias 0.0, row 1 packed as `0x65,0x87` with the same scale and
bias, the kernel returns `true` and writes `out = [6,8,10,12]` — on both the
AVX-512 and the AVX2 back-end. -/
theorem claim_C2 :
    (run_kernel ⟨.avx512, 4, 4, false, false, false, 0⟩
      { output_size := 1, index_size := 2, data_size := 2
        input := [0x21, 0x43, 0x00, 0x3c, 0x00, 0x00, 0x65, 0x87, 0x00, 0x3c, 0x00, 0x00]
        indices := [0, 1], lengths := [2], weights := [], table := none }
      [0, 0, 0, 0] = (true, [6, 8, 10, 12], 1)) ∧
    (run_kernel ⟨.avx2, 4, 4, false, false, false, 0⟩
      { output_size := 1, index_size := 2, data_size := 2
        input := [0x21, 0x43, 0x00, 0x3c, 0x00, 0x00, 0x65, 0x87, 0x00, 0x3c, 0x00, 0x00]
        indices := [0, 1], lengths := [2], weights := [], table := none }
      [0, 0, 0, 0] = (true, [6, 8, 10, 12], 1)) := by
  constructor <;>
    norm_num +decide [run_kernel, outer_loop, bag_loop, middle_loop, accumulate, fma_row,
      row_scale, row_bias, row_elem, row_base, cvtph2ps, byteAt, readZ, readQ,
      quant_field, vlen_inv_val, reset_cursors, write_slice, num_groups,
      unroll_factor, num_vec_regs_per_block, num_vec_regs, vlen, ceil_div,
      num_elem_per_byte, fused_block_size, remainder, remainder_32bit_granularity,
      num_of_32bit_per_vload, num_elem_per_32bit]

/-- C3 counterexample: the claim says the bit-rate-2 unpack computes
`(src << 22) | (src << 12) | (src << 6) | src`; the emitted shift is
`2*8+2 = 18`, and with shift 22 the top byte of the lane would hold the wrong
field: at byte `0xc0` the four 2-bit fields are `0,0,0,3`, but the claimed
formula leaves `0` in the top byte. -/
theorem claim_C3_counterexample :
    unpack2_lane_spec_words 0xc0 ≠ unpack2_lane 0xc0 ∧
    unpack2_lane_spec_words 0xc0 / 2 ^ 24 % 2 ^ 8 ≠ quant_field 2 0xc0 3 ∧
    unpack2_lane 0xc0 / 2 ^ 24 % 2 ^ 8 = quant_field 2 0xc0 3 := by
  decide

/-- C3 (amended: the second shift amount is `2*8+2 = 18`, not `22`): for
bit-rate 2 the unpack computes `(src << 18) | (src << 12) | (src << 6) | src`
on the zero-extended 32-bit lanes and masks with the `0x03030303` broadcast,
after which the four 2-bit fields of each source byte occupy the four bytes
of its 32-bit lane, least-significant field in the lowest byte. -/
theorem claim_C3 :
    extract_mask_broadcast 2 = 0x03030303 ∧
    ∀ b < 256,
      unpack2_lane b % 2 ^ 8 = quant_field 2 b 0 ∧
      unpack2_lane b / 2 ^ 8 % 2 ^ 8 = quant_field 2 b 1 ∧
      unpack2_lane b / 2 ^ 16 % 2 ^ 8 = quant_field 2 b 2 ∧
      unpack2_lane b / 2 ^ 24 % 2 ^ 8 = quant_field 2 b 3 := by
  exact ⟨rfl, by decide⟩

/-- C3 witness: the amended statement applied at byte `0xc0`. -/
theorem claim_C3_witness :
    unpack2_lane 0xc0 % 2 ^ 8 = quant_field 2 0xc0 0 ∧
    unpack2_lane 0xc0 / 2 ^ 8 % 2 ^ 8 = quant_field 2 0xc0 1 ∧
    unpack2_lane 0xc0 / 2 ^ 16 % 2 ^ 8 = quant_field 2 0xc0 2 ∧
    unpack2_lane 0xc0 / 2 ^ 24 % 2 ^ 8 = quant_field 2 0xc0 3 :=
  claim_C3.2 0xc0 (by decide)

/-- C4: the `extract_mask` broadcast constant is `0x0f0f` for bit-rate 4 and
`0x03030303` for bit-rate 2, and the bit-rate-4 unpack `src | (src << 4)`
masked with the broadcast places the two adjacent 4-bit fields of each source
byte in the two separate bytes of its 16-bit lane, low field in the low
byte. -/
theorem claim_C4 :
    extract_mask_broadcast 4 = 0x0f0f ∧
    extract_mask_broadcast 2 = 0x03030303 ∧
    ∀ b < 256,
      unpack4_lane b % 2 ^ 8 = quant_field 4 b 0 ∧
      unpack4_lane b / 2 ^ 8 = quant_field 4 b 1 := by
  exact ⟨rfl, rfl, by decide⟩

/-- C4 witness: the statement applied at byte `0x87`. -/
theorem claim_C4_witness :
    unpack4_lane 0x87 % 2 ^ 8 = quant_field 4 0x87 0 ∧
    unpack4_lane 0x87 / 2 ^ 8 = quant_field 4 0x87 1 :=
  claim_C4.2.2 0x87 (by decide)

/-- C7 counterexample: the emitted reset condition is
`v + U < tiles_per_row || (has_weight && is_weight_positional)`, not
`... || is_weight_positional`.  With `has_weight = false`,
`is_weight_positional = true` and a single tile group (AVX-512, `bit_rate 4`,
`block_size 4`), the claimed condition holds yet no rewind is emitted: the
`indices` cursor stays advanced.  And with `has_weight = true` in the same
shape the condition holds and `weights` is rewound, but `indices` is not,
contrary to the claimed "rewind of indices ... and of weights". -/
theorem claim_C7_counterexample :
    reset_condition_spec_words ⟨.avx512, 4, 4, false, true, false, 0⟩ 0 = true ∧
    reset_cursors ⟨.avx512, 4, 4, false, true, false, 0⟩ 0 1 1 0 = (1, 0) ∧
    reset_condition_spec_words ⟨.avx512, 4, 4, true, true, false, 0⟩ 0 = true ∧
    reset_cursors ⟨.avx512, 4, 4, true, true, false, 0⟩ 0 1 1 1 = (1, 0) ∧
    (1 : ℤ) ≠ 1 - 1 := by
  exact ⟨by decide, by decide, by decide, by decide, by decide⟩

/-- C7 (amended): after a tile group's stores the cursors are rewound under
the condition `v + U < tiles_per_row || (has_weight && is_weight_positional)`;
under it `weights` (when `has_weight`) is rewound by the bag's length, while
`indices` is rewound exactly when another unroll group follows
(`v + U < tiles_per_row`), so that the next tile group re-reads the same
bag's indices (and, when `has_weight`, the same weights). -/
theorem claim_C7 :
    (∀ (P : KernelSig) (vecIdx : ℕ) (len icur wcur : ℤ),
      reset_cursors P vecIdx len icur wcur =
        (if vecIdx + unroll_factor P < num_vec_regs_per_block P then icur - len
          else icur,
         if P.has_weight ∧ (vecIdx + unroll_factor P < num_vec_regs_per_block P ∨
             P.is_weight_positional) then wcur - len else wcur)) ∧
    (∀ (P : KernelSig) (A : KernelArgs) (colLo vecIdx n : ℕ) (acc : List ℚ)
        (icur wcur : ℤ) (res : List ℚ × ℤ × ℤ),
      middle_loop P A colLo n acc icur wcur = some res →
      vecIdx + unroll_factor P < num_vec_regs_per_block P →
      (reset_cursors P vecIdx (n : ℤ) res.2.1 res.2.2).1 = icur ∧
      (P.has_weight = true →
        (reset_cursors P vecIdx (n : ℤ) res.2.1 res.2.2).2 = wcur)) := by
  have hchar : ∀ (P : KernelSig) (vecIdx : ℕ) (len icur wcur : ℤ),
      reset_cursors P vecIdx len icur wcur =
        (if vecIdx + unroll_factor P < num_vec_regs_per_block P then icur - len
          else icur,
         if P.has_weight ∧ (vecIdx + unroll_factor P < num_vec_regs_per_block P ∨
             P.is_weight_positional) then wcur - len else wcur) := by
    intro P vecIdx len icur wcur
    unfold reset_cursors
    by_cases hm : vecIdx + unroll_factor P < num_vec_regs_per_block P <;>
      by_cases hw : P.has_weight <;>
      by_cases hp : P.is_weight_positional <;>
      simp [hm, hw, hp]
  refine ⟨hchar, fun P A colLo vecIdx n acc icur wcur res h hm => ?_⟩
  obtain ⟨h1, h2⟩ := middle_loop_cursors P A colLo n acc icur wcur res h
  rw [hchar]
  constructor
  · simp [hm, h1]
  · intro hw
    simp [hm, hw] at h2 ⊢
    omega

/-- C7 witness: a shape with 25 tiles per row and unroll factor 24, so a
second unroll group follows the first; after an empty middle loop the reset
restores both cursors. -/
theorem claim_C7_witness :
    (reset_cursors ⟨.avx512, 4, 400, true, false, false, 0⟩ 0 ((0 : ℕ) : ℤ) 5 7).1 = 5 ∧
    (KernelSig.has_weight ⟨.avx512, 4, 400, true, false, false, 0⟩ = true →
      (reset_cursors ⟨.avx512, 4, 400, true, false, false, 0⟩ 0 ((0 : ℕ) : ℤ) 5 7).2 = 7) :=
  claim_C7.2 ⟨.avx512, 4, 400, true, false, false, 0⟩
    ⟨0, 0, 0, [], [], [], [], none⟩ 0 0 0 [] 5 7 ([], 5, 7) rfl (by decide)

/-- C8: the factory asserts `bit_rate ∈ {2, 4}`; a cpuinfo initialization
failure surfaces as a domain error (no kernel); otherwise the AVX-512
synthesizer is chosen when 512-bit SIMD is present, else the AVX2 synthesizer
when 256-bit SIMD is present, else the scalar-reference closure — for the
dense and the rowwise-sparse factory alike. -/
theorem claim_C8 :
    ∀ (env : CpuEnv) (bit_rate : ℕ),
      (¬(bit_rate = 2 ∨ bit_rate = 4) →
        generateEmbeddingSpMDMNBit env bit_rate = .assertViolation ∧
        generateEmbeddingSpMDMNBitRowWiseSparse env bit_rate = .assertViolation) ∧
      ((bit_rate = 2 ∨ bit_rate = 4) → env.initOk = false →
        generateEmbeddingSpMDMNBit env bit_rate =
          .domainError "Failed to initialize cpuinfo!" ∧
        generateEmbeddingSpMDMNBitRowWiseSparse env bit_rate =
          .domainError "Failed to initialize cpuinfo!") ∧
      ((bit_rate = 2 ∨ bit_rate = 4) → env.initOk = true → env.hasAvx512 = true →
        generateEmbeddingSpMDMNBit env bit_rate = .kernel .jit512 ∧
        generateEmbeddingSpMDMNBitRowWiseSparse env bit_rate = .kernel .jit512) ∧
      ((bit_rate = 2 ∨ bit_rate = 4) → env.initOk = true → env.hasAvx512 = false →
          env.hasAvx2 = true →
        generateEmbeddingSpMDMNBit env bit_rate = .kernel .jit256 ∧
        generateEmbeddingSpMDMNBitRowWiseSparse env bit_rate = .kernel .jit256) ∧
      ((bit_rate = 2 ∨ bit_rate = 4) → env.initOk = true → env.hasAvx512 = false →
          env.hasAvx2 = false →
        generateEmbeddingSpMDMNBit env bit_rate = .kernel .scalarRef ∧
        generateEmbeddingSpMDMNBitRowWiseSparse env bit_rate = .kernel .scalarRef) := by
  intro env bit_rate
  refine ⟨fun h => ?_, fun h h0 => ?_, fun h h0 h5 => ?_, fun h h0 h5 h2 => ?_,
    fun h h0 h5 h2 => ?_⟩ <;>
    simp_all [generateEmbeddingSpMDMNBit, generateEmbeddingSpMDMNBitRowWiseSparse]

/-- C8 witness: a 4-bit factory call on a CPU with AVX-512. -/
theorem claim_C8_witness :
    generateEmbeddingSpMDMNBit ⟨true, true, true⟩ 4 = .kernel .jit512 ∧
    generateEmbeddingSpMDMNBitRowWiseSparse ⟨true, true, true⟩ 4 = .kernel .jit512 :=
  (claim_C8 ⟨true, true, true⟩ 4).2.2.1 (Or.inr rfl) rfl rfl

/-- C9 counterexample: on a publish failure the producer's diagnostic goes to
the standard output stream (`cout`), not to the standard error stream as the
claim states. -/
theorem claim_C9_counterexample :
    (producer_run Unit false ()).value = none ∧
    (producer_run Unit false ()).emitted =
      [(OutStream.standardOut, "Error: in fn add")] ∧
    OutStream.standardOut ≠ OutStream.standardErr := by
  exact ⟨rfl, rfl, by decide⟩

/-- C9 (amended: the diagnostic is written to the standard output stream):
when the assembler runtime fails to publish, the producer returns a null
kernel pointer and writes the diagnostic to standard output; the code cache
does not memoize the failure, so a subsequent `getOrCreate` with the same
signature re-invokes the producer (and can publish a later success). -/
theorem claim_C9 :
    ∀ (K V : Type) (eq : K → K → Bool) (cache : List (K × V)) (key : K) (fn : V),
      cacheFind K V eq cache key = none →
      (producer_run V false fn).value = none ∧
      (producer_run V false fn).emitted =
        [(OutStream.standardOut, "Error: in fn add")] ∧
      getOrCreate K V eq cache key (fun _ => (producer_run V false fn).value) =
        (none, cache) ∧
      getOrCreate K V eq cache key (fun _ => (producer_run V true fn).value) =
        (some fn, (key, fn) :: cache) := by
  intro K V eq cache key fn hnone
  refine ⟨rfl, rfl, ?_, ?_⟩ <;> simp [getOrCreate, hnone, producer_run]

/-- C9 witness: the amended statement applied to the empty cache over
natural-number keys and values. -/
theorem claim_C9_witness :
    getOrCreate ℕ ℕ (fun a b => decide (a = b)) [] 0
        (fun _ => (producer_run ℕ false 7).value) = (none, []) ∧
    getOrCreate ℕ ℕ (fun a b => decide (a = b)) [] 0
        (fun _ => (producer_run ℕ true 7).value) = (some 7, [(0, 7)]) :=
  let h := claim_C9 ℕ ℕ (fun a b => decide (a = b)) [] 0 7 rfl
  ⟨h.2.2.1, h.2.2.2⟩

/-- The rowwise-sparse middle loop, on in-range indices, accumulates exactly
the non-skipped (remapped row, weight) pairs and consumes all `n` cursor
positions. -/
theorem middle_loop_sparse_fold (P : KernelSig) (A : KernelArgs) (t : List ℤ)
    (colLo : ℕ) (hA : A.table = some t) :
    ∀ (n : ℕ) (acc : List ℚ) (icur wcur : ℤ),
      (∀ k < n, ¬bad_index A (icur + (k : ℤ))) →
      middle_loop P A colLo n acc icur wcur =
        some (acc_fold P A.input colLo
            (sparse_pairs A t P.has_weight icur wcur n) acc,
          icur + (n : ℤ), if P.has_weight then wcur + (n : ℤ) else wcur) := by
  intro n
  induction n with
  | zero =>
    intro acc icur wcur _
    simp [middle_loop, sparse_pairs, acc_fold]
  | succ n ih =>
    intro acc icur wcur hok
    have hb : ¬(readZ A.indices icur < 0 ∨ A.data_size ≤ readZ A.indices icur) := by
      have h := hok 0 (by omega)
      simpa [bad_index] using h
    have hok' : ∀ k < n, ¬bad_index A (icur + 1 + (k : ℤ)) := by
      intro k hk
      have h := hok (k + 1) (by omega)
      push_cast at h
      rw [show icur + ((k : ℤ) + 1) = icur + 1 + (k : ℤ) by omega] at h
      exact h
    by_cases hr : readZ t (readZ A.indices icur) = -1
    · rw [show middle_loop P A colLo (n + 1) acc icur wcur =
          middle_loop P A colLo n acc (icur + 1)
            (if P.has_weight then wcur + 1 else wcur) by
        simp only [middle_loop, if_neg hb, hA, if_pos hr]]
      rw [ih acc (icur + 1) (if P.has_weight then wcur + 1 else wcur) hok']
      simp only [Option.some.injEq, Prod.mk.injEq]
      refine ⟨?_, by push_cast; omega, ?_⟩
      · rw [show sparse_pairs A t P.has_weight icur wcur (n + 1) =
          sparse_pairs A t P.has_weight (icur + 1)
            (if P.has_weight then wcur + 1 else wcur) n by
          simp only [sparse_pairs, if_pos hr]]
      · by_cases hw : P.has_weight <;> simp only [hw, if_true, if_false] <;>
          push_cast <;> omega
    · rw [show middle_loop P A colLo (n + 1) acc icur wcur =
          middle_loop P A colLo n
            (accumulate P A.input (readZ t (readZ A.indices icur)).toNat
              (readQ A.weights wcur) colLo acc) (icur + 1)
            (if P.has_weight then wcur + 1 else wcur) by
        simp only [middle_loop, if_neg hb, hA, if_neg hr]]
      rw [ih _ (icur + 1) (if P.has_weight then wcur + 1 else wcur) hok']
      simp only [Option.some.injEq, Prod.mk.injEq]
      refine ⟨?_, by push_cast; omega, ?_⟩
      · rw [show sparse_pairs A t P.has_weight icur wcur (n + 1) =
          (readZ t (readZ A.indices icur), readQ A.weights wcur) ::
            sparse_pairs A t P.has_weight (icur + 1)
              (if P.has_weight then wcur + 1 else wcur) n by
          simp only [sparse_pairs, if_neg hr]]
        simp only [acc_fold]
      · by_cases hw : P.has_weight <;> simp only [hw, if_true, if_false] <;>
          push_cast <;> omega

/-- The dense middle loop run over a stream that spells out a pair list
accumulates exactly that pair list. -/
theorem middle_loop_dense_fold (P : KernelSig) (A : KernelArgs) (colLo : ℕ)
    (hA : A.table = none) :
    ∀ (ps : List (ℤ × ℚ)) (icur wcur : ℤ) (acc : List ℚ),
      (∀ (k : ℕ) (hk : k < ps.length),
        readZ A.indices (icur + (k : ℤ)) = (ps.get ⟨k, hk⟩).1 ∧
        0 ≤ (ps.get ⟨k, hk⟩).1 ∧ (ps.get ⟨k, hk⟩).1 < A.data_size ∧
        (P.has_weight = true →
          readQ A.weights (wcur + (k : ℤ)) = (ps.get ⟨k, hk⟩).2)) →
      middle_loop P A colLo ps.length acc icur wcur =
        some (acc_fold P A.input colLo ps acc, icur + (ps.length : ℤ),
          if P.has_weight then wcur + (ps.length : ℤ) else wcur) := by
  intro ps
  induction ps with
  | nil =>
    intro icur wcur acc _
    simp [middle_loop, acc_fold]
  | cons p ps ih =>
    intro icur wcur acc h
    obtain ⟨h1, h2, h3, h4⟩ := h 0 (by simp)
    have hidx : readZ A.indices icur = p.1 := by simpa using h1
    have h2' : 0 ≤ p.1 := by simpa using h2
    have h3' : p.1 < A.data_size := by simpa using h3
    have hb : ¬(readZ A.indices icur < 0 ∨ A.data_size ≤ readZ A.indices icur) := by
      rw [hidx]
      omega
    have h' : ∀ (k : ℕ) (hk : k < ps.length),
        readZ A.indices (icur + 1 + (k : ℤ)) = (ps.get ⟨k, hk⟩).1 ∧
        0 ≤ (ps.get ⟨k, hk⟩).1 ∧ (ps.get ⟨k, hk⟩).1 < A.data_size ∧
        (P.has_weight = true →
          readQ A.weights ((if P.has_weight then wcur + 1 else wcur) + (k : ℤ)) =
            (ps.get ⟨k, hk⟩).2) := by
      intro k hk
      obtain ⟨g1, g2, g3, g4⟩ := h (k + 1) (by simp only [List.length_cons]; omega)
      push_cast at g1
      rw [show icur + ((k : ℤ) + 1) = icur + 1 + (k : ℤ) by omega] at g1
      refine ⟨by simpa using g1, by simpa using g2, by simpa using g3, fun hw => ?_⟩
      rw [if_pos hw]
      have g4' := g4 hw
      push_cast at g4'
      rw [show wcur + ((k : ℤ) + 1) = wcur + 1 + (k : ℤ) by omega] at g4'
      simpa using g4'
    rw [show middle_loop P A colLo (p :: ps).length acc icur wcur =
        middle_loop P A colLo ps.length
          (accumulate P A.input (readZ A.indices icur).toNat (readQ A.weights wcur)
            colLo acc) (icur + 1) (if P.has_weight then wcur + 1 else wcur) by
      simp only [List.length_cons, middle_loop, if_neg hb, hA]]
    rw [ih (icur + 1) (if P.has_weight then wcur + 1 else wcur) _ h']
    simp only [Option.some.injEq, Prod.mk.injEq]
    have hacc : accumulate P A.input (readZ A.indices icur).toNat (readQ A.weights wcur)
        colLo acc = accumulate P A.input p.1.toNat p.2 colLo acc := by
      rw [hidx]
      by_cases hw : P.has_weight
      · rw [show readQ A.weights wcur = p.2 by simpa using h4 hw]
      · exact accumulate_w_irrel P (by simpa using hw) A.input p.1.toNat _ _ colLo acc
    refine ⟨?_, by simp only [List.length_cons]; push_cast; omega, ?_⟩
    · rw [show acc_fold P A.input colLo (p :: ps) acc =
        acc_fold P A.input colLo ps (accumulate P A.input p.1.toNat p.2 colLo acc) by
          rfl]
      rw [hacc]
    · by_cases hw : P.has_weight <;>
        simp only [hw, if_true, if_false, List.length_cons] <;>
        push_cast <;> omega

/-- C6: in the rowwise-sparse kernel, every index whose
`compressed_indices_table` entry is `-1` contributes nothing to the bag's
accumulators while the `indices` cursor (and, under `has_weight`, the
`weights` cursor) still advances past it; the remaining indices contribute
exactly what the dense kernel computes on the remapped row-id stream with
the matching weights. -/
theorem claim_C6 (P : KernelSig) (A : KernelArgs) (t : List ℤ) (colLo n : ℕ)
    (acc : List ℚ) (icur wcur : ℤ) (A' : KernelArgs) (D : ℤ)
    (hA : A.table = some t)
    (hok : ∀ k < n, ¬bad_index A (icur + (k : ℤ)))
    (hA' : A' = { A with
      indices := (sparse_pairs A t P.has_weight icur wcur n).map Prod.fst
      weights := (sparse_pairs A t P.has_weight icur wcur n).map Prod.snd
      data_size := D
      table := none })
    (hD : ∀ p ∈ sparse_pairs A t P.has_weight icur wcur n, 0 ≤ p.1 ∧ p.1 < D) :
    middle_loop P A colLo n acc icur wcur =
      some (acc_fold P A.input colLo (sparse_pairs A t P.has_weight icur wcur n) acc,
        icur + (n : ℤ), if P.has_weight then wcur + (n : ℤ) else wcur) ∧
    middle_loop P A' colLo (sparse_pairs A t P.has_weight icur wcur n).length acc 0 0 =
      some (acc_fold P A.input colLo (sparse_pairs A t P.has_weight icur wcur n) acc,
        ((sparse_pairs A t P.has_weight icur wcur n).length : ℤ),
        if P.has_weight then
          ((sparse_pairs A t P.has_weight icur wcur n).length : ℤ)
        else 0) := by
  constructor
  · exact middle_loop_sparse_fold P A t colLo hA n acc icur wcur hok
  · have hlen : (sparse_pairs A t P.has_weight icur wcur n).length =
        ((sparse_pairs A t P.has_weight icur wcur n).map Prod.fst).length := by simp
    have hd := middle_loop_dense_fold P A' colLo (by rw [hA'])
      (sparse_pairs A t P.has_weight icur wcur n) 0 0 acc ?_
    · rw [hd]
      have hin : A'.input = A.input := by rw [hA']
      rw [hin]
      simp only [zero_add]
    · intro k hk
      have hfst : A'.indices =
          (sparse_pairs A t P.has_weight icur wcur n).map Prod.fst := by rw [hA']
      have hsnd : A'.weights =
          (sparse_pairs A t P.has_weight icur wcur n).map Prod.snd := by rw [hA']
      have hmem : (sparse_pairs A t P.has_weight icur wcur n).get ⟨k, hk⟩ ∈
          sparse_pairs A t P.has_weight icur wcur n := List.get_mem _ _ hk
      obtain ⟨hd1, hd2⟩ := hD _ hmem
      refine ⟨?_, hd1, by rw [hA']; exact hd2, fun _ => ?_⟩
      · unfold readZ
        rw [if_neg (by omega), hfst]
        rw [show ((0 : ℤ) + (k : ℤ)).toNat = k by omega]
        rw [List.getD_eq_getElem _ _ (by simpa using hk)]
        simp [List.getElem_map]
      · unfold readQ
        rw [if_neg (by omega), hsnd]
        rw [show ((0 : ℤ) + (k : ℤ)).toNat = k by omega]
        rw [List.getD_eq_getElem _ _ (by simpa using hk)]
        simp [List.getElem_map]

/-- C6 witness: the spec's rowwise-sparse scenario —
`compressed_indices_table = [0, -1, 1]`, `indices = [2, 1, 0]`, remapping to
`[1, skip, 0]` — consumes all three cursor positions while accumulating only
the two kept rows, and the dense loop over the remapped stream `[1, 0]`
produces the same accumulators. -/
theorem claim_C6_witness :
    middle_loop ⟨.avx512, 4, 4, false, false, false, 0⟩
      { output_size := 1, index_size := 3, data_size := 3
        input := [33, 67, 0, 60, 0, 0, 101, 135, 0, 60, 0, 0]
        indices := [2, 1, 0], lengths := [3], weights := []
        table := some [0, -1, 1] } 0 3 [0, 0, 0, 0] 0 0 =
      some (acc_fold ⟨.avx512, 4, 4, false, false, false, 0⟩
          [33, 67, 0, 60, 0, 0, 101, 135, 0, 60, 0, 0] 0
          (sparse_pairs
            { output_size := 1, index_size := 3, data_size := 3
              input := [33, 67, 0, 60, 0, 0, 101, 135, 0, 60, 0, 0]
              indices := [2, 1, 0], lengths := [3], weights := []
              table := some [0, -1, 1] } [0, -1, 1] false 0 0 3) [0, 0, 0, 0],
        3, 0) ∧
    middle_loop ⟨.avx512, 4, 4, false, false, false, 0⟩
      { output_size := 1, index_size := 3, data_size := 2
        input := [33, 67, 0, 60, 0, 0, 101, 135, 0, 60, 0, 0]
        indices := (sparse_pairs
            { output_size := 1, index_size := 3, data_size := 3
              input := [33, 67, 0, 60, 0, 0, 101, 135, 0, 60, 0, 0]
              indices := [2, 1, 0], lengths := [3], weights := []
              table := some [0, -1, 1] } [0, -1, 1] false 0 0 3).map Prod.fst
        lengths := [3]
        weights := (sparse_pairs
            { output_size := 1, index_size := 3, data_size := 3
              input := [33, 67, 0, 60, 0, 0, 101, 135, 0, 60, 0, 0]
              indices := [2, 1, 0], lengths := [3], weights := []
              table := some [0, -1, 1] } [0, -1, 1] false 0 0 3).map Prod.snd
        table := none } 0
      (sparse_pairs
        { output_size := 1, index_size := 3, data_size := 3
          input := [33, 67, 0, 60, 0, 0, 101, 135, 0, 60, 0, 0]
          indices := [2, 1, 0], lengths := [3], weights := []
          table := some [0, -1, 1] } [0, -1, 1] false 0 0 3).length
      [0, 0, 0, 0] 0 0 =
      some (acc_fold ⟨.avx512, 4, 4, false, false, false, 0⟩
          [33, 67, 0, 60, 0, 0, 101, 135, 0, 60, 0, 0] 0
          (sparse_pairs
            { output_size := 1, index_size := 3, data_size := 3
              input := [33, 67, 0, 60, 0, 0, 101, 135, 0, 60, 0, 0]
              indices := [2, 1, 0], lengths := [3], weights := []
              table := some [0, -1, 1] } [0, -1, 1] false 0 0 3) [0, 0, 0, 0],
        ((sparse_pairs
            { output_size := 1, index_size := 3, data_size := 3
              input := [33, 67, 0, 60, 0, 0, 101, 135, 0, 60, 0, 0]
              indices := [2, 1, 0], lengths := [3], weights := []
              table := some [0, -1, 1] } [0, -1, 1] false 0 0 3).length : ℤ),
        0) := by
  have h := claim_C6 ⟨.avx512, 4, 4, false, false, false, 0⟩
    { output_size := 1, index_size := 3, data_size := 3
      input := [33, 67, 0, 60, 0, 0, 101, 135, 0, 60, 0, 0]
      indices := [2, 1, 0], lengths := [3], weights := []
      table := some [0, -1, 1] } [0, -1, 1] 0 3 [0, 0, 0, 0] 0 0
    { output_size := 1, index_size := 3, data_size := 2
      input := [33, 67, 0, 60, 0, 0, 101, 135, 0, 60, 0, 0]
      indices := (sparse_pairs
          { output_size := 1, index_size := 3, data_size := 3
            input := [33, 67, 0, 60, 0, 0, 101, 135, 0, 60, 0, 0]
            indices := [2, 1, 0], lengths := [3], weights := []
            table := some [0, -1, 1] } [0, -1, 1] false 0 0 3).map Prod.fst
      lengths := [3]
      weights := (sparse_pairs
          { output_size := 1, index_size := 3, data_size := 3
            input := [33, 67, 0, 60, 0, 0, 101, 135, 0, 60, 0, 0]
            indices := [2, 1, 0], lengths := [3], weights := []
            table := some [0, -1, 1] } [0, -1, 1] false 0 0 3).map Prod.snd
      table := none } 2 rfl (by decide) rfl (by decide)
  constructor
  · simpa using h.1
  · simpa using h.2

end FbgemmNBit
